import Mathlib

/-!
# psqlcc: connection pool, connection and result wrappers

A shallow embedding of `src/psqlcc.cc`.  The client runtime (libpq) sits outside
the repository; its handles are modelled as plain records and its functions as
the total functions its documentation describes.  Owning pointers are `Option`s
(`none` is the null pointer), an `std::atomic_flag` is a `Bool` together with
`test_and_set`, and functions that can raise return `Except`.
-/

namespace postgres

/-! ## Client runtime handles -/

/-- Connection status codes of the runtime (`ConnStatusType`), as integers. -/
abbrev ConnStatusType := Nat

/-- Runtime constant `CONNECTION_OK`, the first enumerator. -/
def CONNECTION_OK : ConnStatusType := 0

/-- Runtime constant `CONNECTION_BAD`, the second enumerator. -/
def CONNECTION_BAD : ConnStatusType := 1

/-- Session object behind a `PGconn *`. -/
structure PGconn where
  /-- the status the runtime reports for this session -/
  status : ConnStatusType
  /-- what `PQsetNoticeProcessor` last installed (`true`: the no-op `notice`) -/
  quiet : Bool
  deriving DecidableEq, Repr

/-- Runtime function `PQstatus`: a null session reports `CONNECTION_BAD`. -/
def PQstatus : Option PGconn → ConnStatusType
  | none => CONNECTION_BAD
  | some c => c.status

/-! ## Connection -/

/-- Source: `postgres::connection::private_data`. -/
structure connection.private_data where
  con : Option PGconn := none
  ok : Bool := false
  deriving DecidableEq, Repr

/-- Source: `postgres::connection`, the owner of one `private_data`; no code of
`psqlcc.cc` moves a connection, so `data` is never null here. -/
structure connection where
  data : connection.private_data
  deriving DecidableEq, Repr

/-- Source: `postgres::connection::ok`. -/
def connection.ok (c : connection) : Bool := c.data.ok

/-! ## Pool -/

/-- Source: `std::atomic_flag::test_and_set`: yields the previous value and
leaves the flag set.  First component: value returned; second: value stored. -/
def test_and_set (flag : Bool) : Bool × Bool := (flag, true)

/-- One pool slot, `pool_con`, by the members `psqlcc.cc` uses: the connection
`con` and the in-use flag `in_use`, an `std::atomic_flag`. -/
structure pool_con where
  con : connection
  in_use : Bool
  deriving DecidableEq, Repr

/-- Source: `postgres::pool`, by the members `psqlcc.cc` uses: the slots `cons`
in construction order and the flag `ok_`.  The mutex and the condition variable
serve only to wait and to wake, and hold no pool data. -/
structure pool where
  cons : List pool_con
  ok_ : Bool
  deriving DecidableEq, Repr

/-- Source: `postgres::pool::conview`, a pointer to a slot, here the slot's
position in `cons`; `none` is the view built from `nullptr`. -/
abbrev conview := Option Nat

/-- Outcome of one pass of the scan loop. -/
structure scan_result where
  /-- the view returned by the pass, `none` when the loop ran off the end -/
  lease : conview
  /-- the slots after the pass -/
  cons : List pool_con
  /-- positions on which `test_and_set` was called, in call order -/
  probed : List Nat
  deriving DecidableEq, Repr

/-- Source: the loop `for (auto & pq : cons) { if (pq->in_use.test_and_set())
continue; return pq; }` shared by `try_acquire` and `acquire`; `i` is the
position of the head of the remaining slots. -/
def pool.scan : List pool_con → Nat → scan_result
  | [], _ => { lease := none, cons := [], probed := [] }
  | pq :: rest, i =>
    let t := test_and_set pq.in_use
    let pq1 : pool_con := { pq with in_use := t.2 }
    if t.1 then
      let r := pool.scan rest (i + 1)
      { lease := r.lease, cons := pq1 :: r.cons, probed := i :: r.probed }
    else
      { lease := some i, cons := pq1 :: rest, probed := [i] }

/-- Outcome of `try_acquire`. -/
structure try_acquire_result where
  lease : conview
  pool : pool
  /-- positions on which `test_and_set` was called, in call order -/
  probed : List Nat
  /-- number of timed waits on the condition variable -/
  waits : Nat
  deriving DecidableEq, Repr

/-- Source: `postgres::pool::try_acquire`: one pass, then `return {nullptr}`. -/
def pool.try_acquire (p : pool) : try_acquire_result :=
  let r := pool.scan p.cons 0
  { lease := r.lease, pool := { p with cons := r.cons }, probed := r.probed, waits := 0 }

/-- Outcome of an `acquire` call that returned. -/
structure acquire_result where
  lease : conview
  /-- the pool as it stood when the claiming pass started -/
  before : pool
  /-- the pool when the call returns -/
  pool : pool
  /-- number of timed waits before the pass that claimed a slot -/
  waits : Nat
  deriving DecidableEq, Repr

/-- Source: the body of `postgres::pool::acquire`: `while (true)` around the
scan loop, with a timed wait on the condition variable after each pass that
claimed nothing.  `wait n q` is the pool after the `n`-th wait started in state
`q` (what other threads did meanwhile); `fuel` bounds the number of passes,
`none` meaning the call has not returned within that many passes; the second
number counts the waits made so far. -/
def pool.acquire_loop (wait : Nat → pool → pool) : Nat → Nat → pool → Option acquire_result
  | 0, _, _ => none
  | fuel + 1, n, p =>
    let r := pool.scan p.cons 0
    match r.lease with
    | some i => some { lease := some i, before := p, pool := { p with cons := r.cons }, waits := n }
    | none => pool.acquire_loop wait fuel (n + 1) (wait n { p with cons := r.cons })

/-- Source: `postgres::pool::acquire`, entered with no wait behind it. -/
def pool.acquire (wait : Nat → pool → pool) (fuel : Nat) (p : pool) : Option acquire_result :=
  pool.acquire_loop wait fuel 0 p

/-- The pool that `acquire` sees at the start of a pass, `m` waits after the
pass that started on `p` with `n` waits behind it, when no pass in between
claimed a slot: such a pass leaves every flag as it found it, so only the
waits act, the first as `wait n`, the next as `wait (n + 1)`, and so on. -/
def pool.after_waits (wait : Nat → pool → pool) : Nat → Nat → pool → pool
  | _, 0, p => p
  | n, m + 1, p => pool.after_waits wait (n + 1) m (wait n p)

/-- In-use flags of the slots, in construction order. -/
def pool.flags (p : pool) : List Bool := p.cons.map pool_con.in_use

/-! ### Sample pools -/

/-- A healthy connection whose session reports `CONNECTION_OK`. -/
def sample_connection : connection :=
  { data := { con := some { status := CONNECTION_OK, quiet := true }, ok := true } }

/-- Three slots, the first leased, the other two free. -/
def sample_pool : pool :=
  { cons := [⟨sample_connection, true⟩, ⟨sample_connection, false⟩, ⟨sample_connection, false⟩],
    ok_ := true }

/-- Two slots, both leased. -/
def sample_full_pool : pool :=
  { cons := [⟨sample_connection, true⟩, ⟨sample_connection, true⟩], ok_ := true }

/-! ## The pool with its outstanding views, one call at a time -/

/-- Source: the state `pool::pool` leaves behind when every connection came up:
one slot per connection, in construction order, every flag clear. -/
def pool.fresh (cs : List connection) : pool :=
  { cons := cs.map (fun c => { con := c, in_use := false }), ok_ := true }

/-- Modelled from the spec: the destructor of `conview`, declared in the header
`psqlcc.hh`, which is not among the sources: "on destruction, it clears the
slot's in-use flag and wakes one waiter".  `i` is the slot the view refers to;
the wake-up changes no pool data. -/
def pool.release (i : Nat) (p : pool) : pool :=
  { p with cons := p.cons.modify (fun c => { c with in_use := false }) i }

/-- Interference that ends the lease on slot 1 during the first wait and does
nothing afterwards. -/
def sample_wait (n : Nat) (q : pool) : pool :=
  if n = 0 then q.release 1 else q

/-- A pool together with the non-empty views handed out and not yet destroyed,
each recorded by the slot it refers to (most recent first). -/
structure pool_sys where
  pool : pool
  leases : List Nat
  deriving DecidableEq, Repr

/-- Calls made on a pool, one after the other. -/
inductive pool_op where
  /-- a call of `try_acquire` -/
  | try_acquire
  /-- a call of `acquire`, given `fuel` passes to return -/
  | acquire (fuel : Nat)
  /-- destruction of an outstanding view of slot `slot` -/
  | destroy (slot : Nat)
  deriving DecidableEq, Repr

/-- Records a returned view among the outstanding ones; an empty view refers to
no slot and is not recorded. -/
def pool_sys.hand_out (v : conview) (leases : List Nat) : List Nat :=
  match v with
  | some i => i :: leases
  | none => leases

/-- One call.  `none`: the call does not complete (an `acquire` that has not
returned within its fuel, or the destruction of a view that does not exist).
Between two calls of a sequential run nothing else touches the pool, so the
waits of `acquire` leave it as it is. -/
def pool_sys.step (s : pool_sys) : pool_op → Option pool_sys
  | .try_acquire =>
    let r := s.pool.try_acquire
    some { pool := r.pool, leases := pool_sys.hand_out r.lease s.leases }
  | .acquire fuel =>
    match pool.acquire (fun _ q => q) fuel s.pool with
    | none => none
    | some r => some { pool := r.pool, leases := pool_sys.hand_out r.lease s.leases }
  | .destroy slot =>
    if slot ∈ s.leases then
      some { pool := s.pool.release slot, leases := s.leases.erase slot }
    else none

/-- A sequence of calls, each on the state the previous one left. -/
def pool_sys.run : List pool_op → pool_sys → Option pool_sys
  | [], s => some s
  | op :: ops, s => (s.step op).bind (pool_sys.run ops)

/-- A freshly constructed pool with no view handed out. -/
def pool_sys.init (cs : List connection) : pool_sys :=
  { pool := pool.fresh cs, leases := [] }

/-- The facts carried along a run: the slot count, no slot recorded twice, and
recorded exactly when flagged. -/
def pool_sys.Inv (N : Nat) (s : pool_sys) : Prop :=
  s.pool.cons.length = N ∧ s.leases.Nodup ∧
    ∀ i, i ∈ s.leases ↔ s.pool.flags[i]? = some true

/-! ## The pool under concurrent callers

Each caller is one call of `try_acquire` or `acquire` together with the life of
the view it returns.  A schedule interleaves the callers' atomic actions in any
order; the only action on shared data inside a call is one `test_and_set` on
one slot. -/

/-- Where a caller stands. -/
inductive caller where
  /-- outside any call, holding no view -/
  | idle
  /-- inside the scan loop of `try_acquire` (`blocking = false`) or of `acquire`
  (`blocking = true`), with the loop iterator at position `i` -/
  | scanning (blocking : Bool) (i : Nat)
  /-- inside `acquire`, in the timed wait after a pass that claimed nothing -/
  | waiting
  /-- returned from its call with a view of `slot`, not yet destroyed -/
  | holding (slot : Nat)
  deriving DecidableEq, Repr

/-- The shared pool and every caller's position. -/
structure pool_conc where
  pool : pool
  callers : Nat → caller

/-- One atomic action of one caller. -/
inductive pool_event where
  /-- caller `t` enters `try_acquire` (`blocking = false`) or `acquire` -/
  | call (t : Nat) (blocking : Bool)
  /-- caller `t` performs the next action of the call it is in -/
  | advance (t : Nat)
  /-- caller `t` destroys the view it holds -/
  | destroy (t : Nat)
  deriving DecidableEq, Repr

/-- Effect of one action; an action its caller cannot perform changes nothing.
`advance` inside the scan loop is one iteration of `for (auto & pq : cons)`:
past the last slot `try_acquire` returns `{nullptr}` and `acquire` goes to
wait; otherwise `test_and_set` on the slot, `continue` if it was set, `return
pq` if it was clear.  `advance` while waiting ends the wait and restarts the
loop.  `destroy` is `pool.release` on the held slot. -/
def pool_conc.step (s : pool_conc) : pool_event → pool_conc
  | .call t blocking =>
    match s.callers t with
    | .idle => { s with callers := Function.update s.callers t (.scanning blocking 0) }
    | _ => s
  | .advance t =>
    match s.callers t with
    | .scanning blocking i =>
      match s.pool.cons[i]? with
      | none =>
        { s with callers := Function.update s.callers t (if blocking then .waiting else .idle) }
      | some pq =>
        let r := test_and_set pq.in_use
        { pool := { s.pool with cons := s.pool.cons.set i { pq with in_use := r.2 } },
          callers := Function.update s.callers t
            (if r.1 then .scanning blocking (i + 1) else .holding i) }
    | .waiting => { s with callers := Function.update s.callers t (.scanning true 0) }
    | _ => s
  | .destroy t =>
    match s.callers t with
    | .holding slot =>
      { pool := s.pool.release slot, callers := Function.update s.callers t .idle }
    | _ => s

/-- A schedule, executed action by action. -/
def pool_conc.run (evs : List pool_event) (s : pool_conc) : pool_conc :=
  evs.foldl pool_conc.step s

/-- A freshly constructed pool and no caller in any call. -/
def pool_conc.init (cs : List connection) : pool_conc :=
  { pool := pool.fresh cs, callers := fun _ => .idle }

/-- The facts carried along a schedule: a held slot is flagged, and no slot is
held by two callers. -/
def pool_conc.Inv (s : pool_conc) : Prop :=
  (∀ t slot, s.callers t = .holding slot → s.pool.flags[slot]? = some true) ∧
  (∀ t1 t2 slot, s.callers t1 = .holding slot → s.callers t2 = .holding slot → t1 = t2)

/-- Two callers racing on a fresh two-slot pool: both enter `acquire`; caller 0
claims slot 0, caller 1 finds it taken and claims slot 1; the last action finds
caller 0 already returned. -/
def sample_race : List pool_event :=
  [.call 0 true, .call 1 true, .advance 0, .advance 1, .advance 1, .advance 0]

/-! ## Result -/

/-- Result status codes of the runtime (`ExecStatusType`), in declaration
order. -/
inductive ExecStatusType where
  | PGRES_EMPTY_QUERY
  | PGRES_COMMAND_OK
  | PGRES_TUPLES_OK
  | PGRES_COPY_OUT
  | PGRES_COPY_IN
  | PGRES_BAD_RESPONSE
  | PGRES_NONFATAL_ERROR
  | PGRES_FATAL_ERROR
  | PGRES_COPY_BOTH
  | PGRES_SINGLE_TUPLE
  | PGRES_PIPELINE_SYNC
  | PGRES_PIPELINE_ABORTED
  | PGRES_TUPLES_CHUNK
  deriving DecidableEq, Repr

open ExecStatusType

/-- The statuses that report a failed statement: bad response and the two
error statuses. -/
def ExecStatusType.is_failure (s : ExecStatusType) : Bool :=
  s = PGRES_BAD_RESPONSE || s = PGRES_NONFATAL_ERROR || s = PGRES_FATAL_ERROR

/-- Result object behind a `PGresult *`.  `id` stands for its address;
`tuples` holds the rows, a cell being `none` for SQL NULL. -/
structure PGresult where
  id : Nat
  resultStatus : ExecStatusType
  numAttributes : Nat
  tuples : List (List (Option String))
  errMsg : String
  deriving DecidableEq, Repr

/-- Runtime function `PQresultStatus`, on a non-null handle. -/
def PQresultStatus (res : PGresult) : ExecStatusType := res.resultStatus

/-- Runtime function `PQnfields`: zero on a null handle. -/
def PQnfields : Option PGresult → Nat
  | none => 0
  | some res => res.numAttributes

/-- Runtime function `PQntuples`: zero on a null handle. -/
def PQntuples : Option PGresult → Nat
  | none => 0
  | some res => res.tuples.length

/-- Text the runtime stores for a cell: an SQL NULL is stored as the empty
string. -/
def PGresult.text (res : PGresult) (row field : Nat) : String :=
  match res.tuples[row]? with
  | some cells =>
    match cells[field]? with
    | some (some v) => v
    | _ => ""
  | none => ""

/-- Runtime function `PQgetvalue`: the null pointer (`none`) on a null handle
or when row or field is out of range, otherwise the cell's text. -/
def PQgetvalue (res : Option PGresult) (row field : Int) : Option String :=
  match res with
  | none => none
  | some g =>
    if 0 ≤ row ∧ row < (g.tuples.length : Int) ∧ 0 ≤ field ∧ field < (g.numAttributes : Int) then
      some (g.text row.toNat field.toNat)
    else none

/-- Runtime function `PQresultErrorMessage`: empty on a null handle. -/
def PQresultErrorMessage : Option PGresult → String
  | none => ""
  | some res => res.errMsg

/-- Source: `postgres::result::private_data`, with its member initialisers. -/
structure result.private_data where
  res : Option PGresult := none
  status : ExecStatusType := PGRES_BAD_RESPONSE
  deriving DecidableEq, Repr

/-- Source: `postgres::result`: a `unique_ptr` to its `private_data`, null
(`none`) once the result has been moved from. -/
structure result where
  data : Option result.private_data
  deriving DecidableEq, Repr

/-- A cell's text (`postgres::value`). -/
abbrev value := String

/-- Source: `postgres::result::result()`. -/
def result.ctor : result := { data := some {} }

/-- Source: `postgres::result::result(pg_result * res)`. -/
def result.ctor_res (res : Option PGresult) : result :=
  { data := some
      { res := res
        status := match res with
          | some g => PQresultStatus g
          | none => PGRES_BAD_RESPONSE } }

/-- Source: `postgres::result::result(result && other)`: the new result takes
what `other.data.release()` returns.  First component: the new result; second:
`other` afterwards. -/
def result.ctor_move (other : result) : result × result :=
  ({ data := other.data }, { data := none })

/-- Source: `postgres::result::num_fields`; `none` when `data` is null, where
`data->res` is undefined. -/
def result.num_fields (r : result) : Option Nat := r.data.map (fun d => PQnfields d.res)

/-- Source: `postgres::result::num_rows`. -/
def result.num_rows (r : result) : Option Nat := r.data.map (fun d => PQntuples d.res)

/-- Source: `postgres::result::get_value`: `c ? c : ""`. -/
def result.get_value (r : result) (row field : Int) : Option value :=
  r.data.map (fun d =>
    match PQgetvalue d.res row field with
    | some c => c
    | none => "")

/-- Builds the values of `emplace_back(c)` for each pointer `c` in order; a
`value` cannot be built from the null pointer, so the outcome is `none` as soon
as one pointer is null. -/
def result.emplace_all : List (Option String) → Option (List value)
  | [] => some []
  | none :: _ => none
  | some c :: rest => (result.emplace_all rest).map (fun vs => c :: vs)

/-- Source: `postgres::result::get_row`: for `field` from 0 up to
`num_fields()`, `values.emplace_back(PQgetvalue(data->res, row, field))`. -/
def result.get_row (r : result) (row : Int) : Option (List value) :=
  match r.data with
  | none => none
  | some d =>
    result.emplace_all
      ((List.range (PQnfields d.res)).map (fun field : Nat => PQgetvalue d.res row (field : Int)))

/-- Source: `postgres::result::get_error`. -/
def result.get_error (r : result) : Option String :=
  r.data.map (fun d => PQresultErrorMessage d.res)

/-- Source: `postgres::result::cmd_ok`. -/
def result.cmd_ok (r : result) : Option Bool :=
  r.data.map (fun d => decide (d.status = PGRES_COMMAND_OK))

/-- Source: `postgres::result::tuples_ok`. -/
def result.tuples_ok (r : result) : Option Bool :=
  r.data.map (fun d => decide (d.status = PGRES_TUPLES_OK))

/-- The status a result holds; `none` when `data` is null. -/
def result.status (r : result) : Option ExecStatusType := r.data.map (fun d => d.status)

/-- The handle a result owns, if any. -/
def result.handle (r : result) : Option PGresult := r.data.bind (fun d => d.res)

/-- A two-row, two-column tuples result whose second row has an SQL NULL in its
first column. -/
def sample_PGresult : PGresult :=
  { id := 0, resultStatus := PGRES_TUPLES_OK, numAttributes := 2,
    tuples := [[some "1", some "a"], [none, some "b"]], errMsg := "" }

/-! ## Result objects and the handles they own -/

/-- Source: `postgres::result::private_data::~private_data`: `if (res)
PQclear(res)`.  `cleared` lists the handles passed to `PQclear` so far, oldest
first, each by its `id`. -/
def result.private_data.dtor (d : result.private_data) (cleared : List Nat) : List Nat :=
  match d.res with
  | some g => cleared ++ [g.id]
  | none => cleared

/-- What `unique_ptr` does with the pointer it gives up: nothing when null,
`delete` otherwise. -/
def result.delete_data (data : Option result.private_data) (cleared : List Nat) : List Nat :=
  match data with
  | some d => d.dtor cleared
  | none => cleared

/-- Library: `unique_ptr::release` on `data`: hands out the pointer and leaves
null.  First component: the pointer; second: the result afterwards. -/
def result.release_data (r : result) : Option result.private_data × result :=
  (r.data, { data := none })

/-- Library: `unique_ptr::reset(p)` on `data`: stores `p`, then deletes what
was stored before. -/
def result.reset_data (r : result) (p : Option result.private_data) (cleared : List Nat) :
    result × List Nat :=
  ({ data := p }, result.delete_data r.data cleared)

/-- Source: `postgres::result::~result`: destroys `data`. -/
def result.dtor (r : result) (cleared : List Nat) : List Nat :=
  result.delete_data r.data cleared

/-- Source: `postgres::result::operator = (result && other)` on two distinct
objects: `data = std::move(other.data)`, that is `data.reset(other.data
.release())`.  Components: `*this` afterwards, `other` afterwards, the release
log afterwards. -/
def result.assign (this other : result) (cleared : List Nat) : result × result × List Nat :=
  let rel := other.release_data
  let rst := this.reset_data rel.1 cleared
  (rst.1, rel.2, rst.2)

/-- The result objects alive at each address, the release log of the runtime,
and the `id` the runtime gives the next result it creates. -/
structure result_heap where
  objs : Nat → Option result
  cleared : List Nat
  next : Nat

/-- What a program does with result objects. -/
inductive result_op where
  /-- `result()` at the unused address `a` -/
  | construct (a : Nat)
  /-- `result(res)` at the unused address `a`, where `res` is what the runtime
  just returned: null, or a new result with the given content -/
  | wrap (a : Nat) (res : Option PGresult)
  /-- `result(std::move(src))` at the unused address `a` -/
  | move_construct (a src : Nat)
  /-- `dst = std::move(src)` -/
  | move_assign (dst src : Nat)
  /-- end of the life of the object at `a` -/
  | destroy (a : Nat)
  deriving DecidableEq, Repr

/-- Effect of one operation; an operation on an address in the wrong state (a
constructor where an object lives, anything else where none lives) changes
nothing.  In `move_assign` the destination is read after the release of the
source, as `data.reset(other.data.release())` does, so that moving an object
onto itself is covered. -/
def result_heap.step (h : result_heap) : result_op → result_heap
  | .construct a =>
    match h.objs a with
    | none => { h with objs := Function.update h.objs a (some result.ctor) }
    | some _ => h
  | .wrap a res =>
    match h.objs a with
    | none =>
      match res with
      | none => { h with objs := Function.update h.objs a (some (result.ctor_res none)) }
      | some g =>
        { objs := Function.update h.objs a (some (result.ctor_res (some { g with id := h.next })))
          cleared := h.cleared
          next := h.next + 1 }
    | some _ => h
  | .move_construct a src =>
    match h.objs a, h.objs src with
    | none, some other =>
      let m := result.ctor_move other
      { h with objs := Function.update (Function.update h.objs src (some m.2)) a (some m.1) }
    | _, _ => h
  | .move_assign dst src =>
    match h.objs src with
    | some other =>
      let rel := other.release_data
      let objs1 := Function.update h.objs src (some rel.2)
      match objs1 dst with
      | some this =>
        let rst := this.reset_data rel.1 h.cleared
        { objs := Function.update objs1 dst (some rst.1), cleared := rst.2, next := h.next }
      | none => h
    | none => h
  | .destroy a =>
    match h.objs a with
    | some r =>
      { objs := Function.update h.objs a none, cleared := r.dtor h.cleared, next := h.next }
    | none => h

/-- A program, executed operation by operation. -/
def result_heap.run (ops : List result_op) (h : result_heap) : result_heap :=
  ops.foldl result_heap.step h

/-- No object alive, nothing released, no result created yet. -/
def result_heap.empty : result_heap :=
  { objs := fun _ => none, cleared := [], next := 0 }

/-- The `id` of the handle owned through a slot of the object table: none when
no object lives there or the object owns no handle. -/
def result.owned_id (x : Option result) : Option Nat :=
  x.bind (fun r => r.handle.map (fun g => g.id))

/-- The `id` of the handle owned by the object at address `a`, if an object
lives there and owns one. -/
def result_heap.owner_id (h : result_heap) (a : Nat) : Option Nat :=
  result.owned_id (h.objs a)

/-- The facts carried along a program, on the owner map `o`, the release log
`c` and the creation count `n`: nothing released twice, everything released or
owned was created, an owned handle is not released, no handle has two owners,
and every created handle is released or owned. -/
def result_heap.InvA (o : Nat → Option Nat) (c : List Nat) (n : Nat) : Prop :=
  c.Nodup ∧
  (∀ id, id ∈ c → id < n) ∧
  (∀ a id, o a = some id → id < n ∧ id ∉ c) ∧
  (∀ a b id, o a = some id → o b = some id → a = b) ∧
  (∀ id, id < n → id ∈ c ∨ ∃ a, o a = some id)

/-- The facts carried along a program, on a heap. -/
def result_heap.Inv (h : result_heap) : Prop :=
  result_heap.InvA h.owner_id h.cleared h.next

/-- A program that wraps two results, moves the first into a new object,
overwrites it with the second and destroys every object. -/
def sample_program : List result_op :=
  [.wrap 0 (some sample_PGresult), .wrap 1 (some sample_PGresult), .move_construct 2 0,
   .move_assign 2 1, .move_assign 2 2, .destroy 0, .destroy 1, .destroy 2]

/-! ## Establishing connections -/

/-- Source: `postgres::exception`, by the message it carries. -/
structure exception where
  what : String
  deriving DecidableEq, Repr

/-- The client runtime as the constructors see it: whether it is thread-safe
(`PQisthreadsafe`), what the `n`-th call of `PQconnectdb` returns for a given
connection string (`none`: the null pointer), and how many such calls were made
so far. -/
structure PQ where
  threadsafe : Bool
  connectdb : Nat → String → Option PGconn
  calls : Nat

/-- Library: `std::string::c_str` read as a C string: the characters before
the first NUL. -/
def c_str (s : String) : String := String.mk (s.data.takeWhile (fun ch => ch ≠ Char.ofNat 0))

/-- Library: `asterales::strf` on the format `failed to connect to database
"%s" (status %i)`: `%s` prints a C string, `%i` a decimal integer. -/
def strf_connect (name : String) (status : ConnStatusType) : String :=
  "failed to connect to database \"" ++ name ++ "\" (status " ++ toString status ++ ")"

/-- Runtime function `PQconnectdb`: one more call made. -/
def PQconnectdb (rt : PQ) (conninfo : String) : Option PGconn × PQ :=
  (rt.connectdb rt.calls conninfo, { rt with calls := rt.calls + 1 })

/-- Runtime function `PQsetNoticeProcessor` with the no-op `notice`. -/
def PQsetNoticeProcessor (con : Option PGconn) : Option PGconn :=
  con.map (fun c => { c with quiet := true })

/-- Source: `postgres::connection::connection`: connects with `user=postgres
dbname=` followed by the name, throws when the session's status is not
`CONNECTION_OK`, otherwise silences notices and sets `ok`.  Both strings reach
the runtime and the formatter through `c_str()`. -/
def connection.ctor (rt : PQ) (dbname : String) : Except exception connection × PQ :=
  let constr := "user=postgres dbname=" ++ dbname
  let r := PQconnectdb rt (c_str constr)
  if PQstatus r.1 ≠ CONNECTION_OK then
    (.error { what := strf_connect (c_str dbname) (PQstatus r.1) }, r.2)
  else
    (.ok { data := { con := PQsetNoticeProcessor r.1, ok := true } }, r.2)

/-- Modelled from the spec: construction of a slot, `new pool_con {dbname, cvm,
cv}`; `pool_con` is declared in the header `psqlcc.hh`, which is not among the
sources.  The spec has the pool construct its connections "sequentially
against `target`" and a slot wrap "one Connection plus an atomic in-use flag",
free until a view claims it: the slot's connection is constructed from
`dbname`, its exception passing through, and the flag starts clear. -/
def pool_con.ctor (rt : PQ) (dbname : String) : Except exception pool_con × PQ :=
  match connection.ctor rt dbname with
  | (.error e, rt1) => (.error e, rt1)
  | (.ok c, rt1) => (.ok { con := c, in_use := false }, rt1)

/-- Modelled from the spec: the value `ok_` has before the constructor body
runs (its declaration is in the header `psqlcc.hh`): a pool whose construction
stopped early "is left marked not ok". -/
def pool.ok_default : Bool := false

/-- Source: the loop of `postgres::pool::pool`, with `n` iterations to go:
`cons.emplace_back(new pool_con {dbname, cvm, cv})`, an exception of which
leaves the constructor, then `if (!cons.back()->con.ok()) return;`; after the
loop `ok_ = true`. -/
def pool.ctor_loop (dbname : String) : Nat → List pool_con → PQ → Except exception pool × PQ
  | 0, cons, rt => (.ok { cons := cons, ok_ := true }, rt)
  | n + 1, cons, rt =>
    match pool_con.ctor rt dbname with
    | (.error e, rt1) => (.error e, rt1)
    | (.ok slot, rt1) =>
      let cons1 := cons ++ [slot]
      if !slot.con.ok then (.ok { cons := cons1, ok_ := pool.ok_default }, rt1)
      else pool.ctor_loop dbname n cons1 rt1

/-- Source: `postgres::pool::pool`: throws at once when the runtime is not
thread-safe, otherwise runs the loop on an empty `cons`. -/
def pool.ctor (rt : PQ) (dbname : String) (num_cons : Nat) : Except exception pool × PQ :=
  if !rt.threadsafe then
    (.error { what := "PQ is not thread safe, MUST be thread safe!" }, rt)
  else pool.ctor_loop dbname num_cons [] rt

/-- Modelled from the spec: the reader of `ok_`, declared in the header
`psqlcc.hh`: "`is_ok() -> bool` reports overall success". -/
def pool.is_ok (p : pool) : Bool := p.ok_

/-- What the `n`-th call of `PQconnectdb` returns when made by
`connection.ctor` for `dbname`. -/
def PQ.session (rt : PQ) (dbname : String) (n : Nat) : Option PGconn :=
  rt.connectdb n (c_str ("user=postgres dbname=" ++ dbname))

/-- Whether the session of the `n`-th call of `PQconnectdb`, made for `dbname`,
is up. -/
def PQ.attempt_ok (rt : PQ) (dbname : String) (n : Nat) : Bool :=
  PQstatus (rt.session dbname n) = CONNECTION_OK

/-- A thread-safe runtime on which the first connection comes up and every
later one is refused. -/
def sample_runtime : PQ :=
  { threadsafe := true
    connectdb := fun n _ =>
      if n = 0 then some { status := CONNECTION_OK, quiet := false }
      else some { status := CONNECTION_BAD, quiet := false }
    calls := 0 }

/-- A target name with a NUL character inside. -/
def sample_nul_name : String := String.mk ['d', 'b', Char.ofNat 0, 'x']

end postgres

/-! ## Theorems: the scan loop -/

namespace postgres

theorem pool.scan_free (cs : List pool_con) (i0 : Nat)
    (h : ∃ c ∈ cs, c.in_use = false) :
    ∃ k c, cs[k]? = some c ∧ c.in_use = false ∧
      (∀ j, j < k → ∀ d, cs[j]? = some d → d.in_use = true) ∧
      pool.scan cs i0 =
        { lease := some (i0 + k), cons := cs.set k { c with in_use := true },
          probed := List.range' i0 (k + 1) } := by
  induction cs generalizing i0 with
  | nil => obtain ⟨c, hc, _⟩ := h; simp at hc
  | cons pq rest ih =>
    cases hpq : pq.in_use with
    | false =>
      refine ⟨0, pq, by simp, hpq, ?_, ?_⟩
      · intro j hj; omega
      · simp [pool.scan, test_and_set, hpq]
    | true =>
      have h1 : ∃ c ∈ rest, c.in_use = false := by
        obtain ⟨c, hc, hf⟩ := h
        rcases List.mem_cons.mp hc with rfl | hc
        · rw [hpq] at hf; cases hf
        · exact ⟨c, hc, hf⟩
      obtain ⟨k, c, hk, hc, hmin, hs⟩ := ih (i0 + 1) h1
      refine ⟨k + 1, c, by simpa using hk, hc, ?_, ?_⟩
      · intro j hj d hd
        cases j with
        | zero => simp at hd; subst hd; exact hpq
        | succ j => exact hmin j (by omega) d (by simpa using hd)
      · simp only [pool.scan, test_and_set, hpq, if_true, hs, List.set_cons_succ]
        have e : i0 + 1 + k = i0 + (k + 1) := by omega
        have hpq1 : ({ pq with in_use := true } : pool_con) = pq := by
          cases pq; simp_all
        simp [e, hpq1, List.range'_succ]

theorem pool.scan_busy (cs : List pool_con) (i0 : Nat)
    (h : ∀ c ∈ cs, c.in_use = true) :
    pool.scan cs i0 = { lease := none, cons := cs, probed := List.range' i0 cs.length } := by
  induction cs generalizing i0 with
  | nil => simp [pool.scan]
  | cons pq rest ih =>
    have hpq : pq.in_use = true := h pq (by simp)
    have hpq1 : ({ pq with in_use := true } : pool_con) = pq := by
      cases pq; simp_all
    simp [pool.scan, test_and_set, hpq, ih (i0 + 1) (fun c hc => h c (by simp [hc])), hpq1,
      List.range'_succ]

end postgres

/-! ## Theorems: `try_acquire` and `acquire` on one pool state -/

namespace postgres

/-- C1: when some slot is free, `try_acquire` returns a view of the free slot
with the smallest position, having probed exactly the slots up to it; that
slot's flag is set afterwards and every other slot, flag and connection, is as
before. -/
theorem pool.try_acquire_first_free (p : pool) (h : ∃ c ∈ p.cons, c.in_use = false) :
    ∃ k c, p.cons[k]? = some c ∧ c.in_use = false ∧
      (∀ j, j < k → ∀ d, p.cons[j]? = some d → d.in_use = true) ∧
      p.try_acquire.lease = some k ∧
      p.try_acquire.pool = { p with cons := p.cons.set k { c with in_use := true } } ∧
      p.try_acquire.pool.flags[k]? = some true ∧
      (∀ j, j ≠ k → p.try_acquire.pool.flags[j]? = p.flags[j]?) ∧
      p.try_acquire.probed = List.range (k + 1) ∧
      p.try_acquire.waits = 0 := by
  obtain ⟨k, c, hk, hc, hmin, hs⟩ := pool.scan_free p.cons 0 h
  have hlt : k < p.cons.length := by
    rcases List.getElem?_eq_some_iff.mp hk with ⟨hlt, _⟩
    exact hlt
  refine ⟨k, c, hk, hc, hmin, ?_, ?_, ?_, ?_, ?_, ?_⟩
  · simp [pool.try_acquire, hs]
  · simp [pool.try_acquire, hs]
  · simp [pool.try_acquire, hs, pool.flags, List.getElem?_set, hlt]
  · intro j hj
    simp [pool.try_acquire, hs, pool.flags, List.getElem?_set, Ne.symm hj]
  · simp [pool.try_acquire, hs, List.range_eq_range']
  · simp [pool.try_acquire]

theorem pool.try_acquire_first_free_witness :
    (∃ c ∈ sample_pool.cons, c.in_use = false) ∧
    ∃ k c, sample_pool.cons[k]? = some c ∧ c.in_use = false ∧
      (∀ j, j < k → ∀ d, sample_pool.cons[j]? = some d → d.in_use = true) ∧
      sample_pool.try_acquire.lease = some k ∧
      sample_pool.try_acquire.pool =
        { sample_pool with cons := sample_pool.cons.set k { c with in_use := true } } ∧
      sample_pool.try_acquire.pool.flags[k]? = some true ∧
      (∀ j, j ≠ k → sample_pool.try_acquire.pool.flags[j]? = sample_pool.flags[j]?) ∧
      sample_pool.try_acquire.probed = List.range (k + 1) ∧
      sample_pool.try_acquire.waits = 0 :=
  ⟨⟨⟨sample_connection, false⟩, by decide, rfl⟩,
   pool.try_acquire_first_free sample_pool ⟨⟨sample_connection, false⟩, by decide, rfl⟩⟩

/-- C2: when every slot is leased (also when there is no slot), `try_acquire`
returns the empty view after probing each slot once in order, never waits, and
leaves the pool, every flag still set, as it was. -/
theorem pool.try_acquire_all_busy (p : pool) (h : ∀ c ∈ p.cons, c.in_use = true) :
    p.try_acquire =
        { lease := none, pool := p, probed := List.range p.cons.length, waits := 0 } ∧
      ∀ c ∈ p.try_acquire.pool.cons, c.in_use = true := by
  have hs := pool.scan_busy p.cons 0 h
  have e : p.try_acquire =
      { lease := none, pool := p, probed := List.range p.cons.length, waits := 0 } := by
    simp [pool.try_acquire, hs, List.range_eq_range']
  refine ⟨e, ?_⟩
  rw [e]
  exact h

theorem pool.try_acquire_all_busy_witness :
    (∀ c ∈ sample_full_pool.cons, c.in_use = true) ∧
    sample_full_pool.try_acquire =
        { lease := none, pool := sample_full_pool,
          probed := List.range sample_full_pool.cons.length, waits := 0 } ∧
      ∀ c ∈ sample_full_pool.try_acquire.pool.cons, c.in_use = true :=
  ⟨by decide, pool.try_acquire_all_busy sample_full_pool (by decide)⟩

theorem pool.scan_lease (cs : List pool_con) (i0 k : Nat)
    (h : (pool.scan cs i0).lease = some k) :
    ∃ j c, k = i0 + j ∧ cs[j]? = some c ∧ c.in_use = false ∧
      (pool.scan cs i0).cons = cs.set j { c with in_use := true } := by
  by_cases hf : ∃ c ∈ cs, c.in_use = false
  · obtain ⟨j, c, hj, hc, _, hs⟩ := pool.scan_free cs i0 hf
    rw [hs] at h
    refine ⟨j, c, ?_, hj, hc, by rw [hs]⟩
    simpa using h.symm
  · have hb : ∀ c ∈ cs, c.in_use = true := by
      intro c hc
      cases hcu : c.in_use with
      | true => rfl
      | false => exact absurd ⟨c, hc, hcu⟩ hf
    rw [pool.scan_busy cs i0 hb] at h
    cases h

end postgres

/-! ## Theorems: sequences of calls -/

namespace postgres

theorem pool.try_acquire_cases (p : pool) :
    (p.try_acquire.lease = none ∧ p.try_acquire.pool = p) ∨
    (∃ k, p.try_acquire.lease = some k ∧ p.flags[k]? = some false ∧
      p.try_acquire.pool.flags = p.flags.set k true ∧
      p.try_acquire.pool.cons.length = p.cons.length) := by
  by_cases hf : ∃ c ∈ p.cons, c.in_use = false
  · right
    obtain ⟨k, c, hk, hc, _, hs⟩ := pool.scan_free p.cons 0 hf
    refine ⟨k, ?_, ?_, ?_, ?_⟩
    · simp [pool.try_acquire, hs]
    · simp [pool.flags, hk, hc]
    · simp [pool.try_acquire, hs, pool.flags, List.map_set]
    · simp [pool.try_acquire, hs]
  · left
    have hb : ∀ c ∈ p.cons, c.in_use = true := by
      intro c hc
      cases hcu : c.in_use with
      | true => rfl
      | false => exact absurd ⟨c, hc, hcu⟩ hf
    simp [pool.try_acquire, pool.scan_busy p.cons 0 hb]

theorem pool.acquire_loop_quiet (fuel n : Nat) (p : pool) (r : acquire_result)
    (h : pool.acquire_loop (fun _ q => q) fuel n p = some r) :
    r.lease = p.try_acquire.lease ∧ r.pool = p.try_acquire.pool ∧ r.lease ≠ none := by
  induction fuel generalizing n with
  | zero => simp [pool.acquire_loop] at h
  | succ fuel ih =>
    unfold pool.acquire_loop at h
    cases hl : (pool.scan p.cons 0).lease with
    | none =>
      simp only [hl] at h
      have hb : (pool.scan p.cons 0).cons = p.cons := by
        by_cases hf : ∃ c ∈ p.cons, c.in_use = false
        · obtain ⟨k, c, _, _, _, hs⟩ := pool.scan_free p.cons 0 hf
          rw [hs] at hl; cases hl
        · have hb : ∀ c ∈ p.cons, c.in_use = true := by
            intro c hc
            cases hcu : c.in_use with
            | true => rfl
            | false => exact absurd ⟨c, hc, hcu⟩ hf
          rw [pool.scan_busy p.cons 0 hb]
      rw [hb] at h
      exact ih _ h
    | some i =>
      simp only [hl, Option.some.injEq] at h
      subst h
      simp [pool.try_acquire, hl]

theorem pool_sys.seq_inv_init (cs : List connection) :
    pool_sys.Inv cs.length (pool_sys.init cs) := by
  refine ⟨by simp [pool_sys.init, pool.fresh], by simp [pool_sys.init], ?_⟩
  intro i
  simp [pool_sys.init, pool.fresh, pool.flags]

theorem pool_sys.seq_inv_hand_out (N : Nat) (s : pool_sys) (hs : pool_sys.Inv N s) :
    pool_sys.Inv N
      { pool := s.pool.try_acquire.pool,
        leases := pool_sys.hand_out s.pool.try_acquire.lease s.leases } := by
  obtain ⟨hlen, hnd, hiff⟩ := hs
  rcases pool.try_acquire_cases s.pool with ⟨hl, hp⟩ | ⟨k, hl, hk, hfl, hlen1⟩
  · rw [hl, hp]
    exact ⟨hlen, hnd, hiff⟩
  · rw [hl]
    have hklt : k < s.pool.flags.length := by
      rcases List.getElem?_eq_some_iff.mp hk with ⟨hlt, _⟩
      exact hlt
    have hnot : k ∉ s.leases := by
      intro hmem
      have := (hiff k).mp hmem
      rw [hk] at this
      cases this
    refine ⟨by simpa [hlen] using hlen1, ?_, ?_⟩
    · simpa [pool_sys.hand_out] using And.intro hnot hnd
    · intro i
      simp only [pool_sys.hand_out, List.mem_cons, hfl]
      by_cases hik : i = k
      · subst hik
        simp [List.getElem?_set, hklt]
      · have hki : ¬ k = i := fun e => hik e.symm
        simp [List.getElem?_set, hik, hki, hiff i]

theorem pool_sys.seq_inv_step (N : Nat) (s t : pool_sys) (op : pool_op)
    (hs : pool_sys.Inv N s) (h : s.step op = some t) : pool_sys.Inv N t := by
  cases op with
  | try_acquire =>
    simp only [pool_sys.step, Option.some.injEq] at h
    subst h
    exact pool_sys.seq_inv_hand_out N s hs
  | acquire fuel =>
    simp only [pool_sys.step] at h
    cases ha : pool.acquire (fun _ q => q) fuel s.pool with
    | none => simp [ha] at h
    | some r =>
      simp only [ha, Option.some.injEq] at h
      subst h
      obtain ⟨h1, h2, _⟩ := pool.acquire_loop_quiet fuel 0 s.pool r ha
      rw [h1, h2]
      exact pool_sys.seq_inv_hand_out N s hs
  | destroy slot =>
    simp only [pool_sys.step] at h
    by_cases hm : slot ∈ s.leases
    · simp only [hm, if_true, Option.some.injEq] at h
      subst h
      obtain ⟨hlen, hnd, hiff⟩ := hs
      refine ⟨by simpa [pool.release] using hlen, hnd.erase slot, ?_⟩
      intro i
      rw [hnd.mem_erase_iff]
      by_cases his : i = slot
      · subst his
        simp [pool.release, pool.flags, List.getElem?_modify]
      · have hsi : ¬ slot = i := fun e => his e.symm
        have := hiff i
        simp only [pool.flags, List.getElem?_map] at this
        simp [pool.release, pool.flags, List.getElem?_modify, his, hsi, this]
    · simp [hm] at h

theorem pool_sys.seq_inv_run (N : Nat) (ops : List pool_op) (s t : pool_sys)
    (hs : pool_sys.Inv N s) (h : pool_sys.run ops s = some t) : pool_sys.Inv N t := by
  induction ops generalizing s with
  | nil =>
    simp only [pool_sys.run, Option.some.injEq] at h
    subst h
    exact hs
  | cons op ops ih =>
    simp only [pool_sys.run] at h
    cases hst : s.step op with
    | none => simp [hst] at h
    | some u =>
      rw [hst] at h
      exact ih u (pool_sys.seq_inv_step N s u op hs hst) h

end postgres

namespace postgres

/-- C3: in every state reached from a freshly constructed pool of `N` slots by
any sequence of `try_acquire`, `acquire` and view-destruction calls, the slot
count is still `N`, no slot has more than one outstanding view, a slot has an
outstanding view exactly when its in-use flag is set, and at most `N` views
are outstanding. -/
theorem pool_sys.reachable_invariant (cs : List connection) (ops : List pool_op)
    (s : pool_sys) (h : pool_sys.run ops (pool_sys.init cs) = some s) :
    s.pool.cons.length = cs.length ∧
    (∀ i, s.leases.count i ≤ 1) ∧
    (∀ i, i ∈ s.leases ↔ s.pool.flags[i]? = some true) ∧
    s.leases.length ≤ cs.length := by
  obtain ⟨hlen, hnd, hiff⟩ :=
    pool_sys.seq_inv_run cs.length ops (pool_sys.init cs) s (pool_sys.seq_inv_init cs) h
  refine ⟨hlen, fun i => List.nodup_iff_count_le_one.mp hnd i, hiff, ?_⟩
  have hsub : s.leases ⊆ List.range cs.length := by
    intro i hi
    have hflag := (hiff i).mp hi
    rcases List.getElem?_eq_some_iff.mp hflag with ⟨hlt, _⟩
    have : i < s.pool.cons.length := by simpa [pool.flags] using hlt
    exact List.mem_range.mpr (by omega)
  have := (List.subperm_of_subset hnd hsub).length_le
  simpa using this

theorem pool_sys.reachable_invariant_witness :
    ∃ s, pool_sys.run [.try_acquire, .acquire 1, .try_acquire, .destroy 0, .acquire 3]
        (pool_sys.init [sample_connection, sample_connection]) = some s ∧
      s.leases = [0, 1] ∧
      (s.pool.cons.length = [sample_connection, sample_connection].length ∧
       (∀ i, s.leases.count i ≤ 1) ∧
       (∀ i, i ∈ s.leases ↔ s.pool.flags[i]? = some true) ∧
       s.leases.length ≤ [sample_connection, sample_connection].length) :=
  ⟨{ pool := sample_full_pool, leases := [0, 1] }, by decide, rfl,
   pool_sys.reachable_invariant [sample_connection, sample_connection]
     [.try_acquire, .acquire 1, .try_acquire, .destroy 0, .acquire 3]
     { pool := sample_full_pool, leases := [0, 1] } (by decide)⟩

end postgres

/-! ## Theorems: interleaved callers -/

namespace postgres

theorem pool_conc.conc_inv_move (s : pool_conc) (t : Nat) (c : caller)
    (hc : ∀ slot, c ≠ .holding slot) (hs : pool_conc.Inv s) :
    pool_conc.Inv { s with callers := Function.update s.callers t c } := by
  obtain ⟨h1, h2⟩ := hs
  constructor
  · intro u slot hu
    by_cases hut : u = t
    · subst hut
      simp only [Function.update_same] at hu
      exact absurd hu (hc slot)
    · simp only [Function.update_noteq hut] at hu
      exact h1 u slot hu
  · intro u1 u2 slot hu1 hu2
    by_cases e1 : u1 = t
    · subst e1
      simp only [Function.update_same] at hu1
      exact absurd hu1 (hc slot)
    · by_cases e2 : u2 = t
      · subst e2
        simp only [Function.update_same] at hu2
        exact absurd hu2 (hc slot)
      · simp only [Function.update_noteq e1] at hu1
        simp only [Function.update_noteq e2] at hu2
        exact h2 u1 u2 slot hu1 hu2

theorem pool_conc.conc_inv_probe (s : pool_conc) (t i : Nat) (blocking : Bool) (pq : pool_con)
    (hpq : s.pool.cons[i]? = some pq) (hs : pool_conc.Inv s) :
    pool_conc.Inv
      { pool := { s.pool with cons := s.pool.cons.set i { pq with in_use := true } },
        callers := Function.update s.callers t
          (if pq.in_use then .scanning blocking (i + 1) else .holding i) } := by
  obtain ⟨h1, h2⟩ := hs
  have hlt : i < s.pool.cons.length := by
    rcases List.getElem?_eq_some_iff.mp hpq with ⟨hlt, _⟩
    exact hlt
  have hflag : s.pool.flags[i]? = some pq.in_use := by simp [pool.flags, hpq]
  have hkeep : ∀ slot : Nat, s.pool.flags[slot]? = some true →
      (pool.flags { s.pool with cons := s.pool.cons.set i { pq with in_use := true } })[slot]?
        = some true := by
    intro slot hslot
    simp only [pool.flags, List.map_set, List.getElem?_set]
    by_cases e : i = slot
    · subst e; simp [hlt]
    · simpa [e, pool.flags] using hslot
  cases hu : pq.in_use with
  | true =>
    simp only [if_true]
    constructor
    · intro u slot hus
      by_cases hut : u = t
      · subst hut
        simp at hus
      · simp only [Function.update_noteq hut] at hus
        exact hkeep slot (h1 u slot hus)
    · intro u1 u2 slot hu1 hu2
      by_cases e1 : u1 = t
      · subst e1; simp at hu1
      · by_cases e2 : u2 = t
        · subst e2; simp at hu2
        · simp only [Function.update_noteq e1] at hu1
          simp only [Function.update_noteq e2] at hu2
          exact h2 u1 u2 slot hu1 hu2
  | false =>
    rw [hu] at hflag
    have hfree : ∀ u, s.callers u ≠ .holding i := by
      intro u hcu
      have := h1 u i hcu
      rw [hflag] at this
      cases this
    simp only [Bool.false_eq_true, if_false]
    constructor
    · intro u slot hus
      by_cases hut : u = t
      · subst hut
        simp only [Function.update_same, caller.holding.injEq] at hus
        subst hus
        simp [pool.flags, List.getElem?_set, hlt]
      · simp only [Function.update_noteq hut] at hus
        exact hkeep slot (h1 u slot hus)
    · intro u1 u2 slot hu1 hu2
      by_cases e1 : u1 = t
      · by_cases e2 : u2 = t
        · rw [e1, e2]
        · subst e1
          simp only [Function.update_same, caller.holding.injEq] at hu1
          simp only [Function.update_noteq e2] at hu2
          subst hu1
          exact absurd hu2 (hfree u2)
      · by_cases e2 : u2 = t
        · subst e2
          simp only [Function.update_same, caller.holding.injEq] at hu2
          simp only [Function.update_noteq e1] at hu1
          subst hu2
          exact absurd hu1 (hfree u1)
        · simp only [Function.update_noteq e1] at hu1
          simp only [Function.update_noteq e2] at hu2
          exact h2 u1 u2 slot hu1 hu2

theorem pool_conc.conc_inv_destroy (s : pool_conc) (t slot : Nat)
    (ht : s.callers t = .holding slot) (hs : pool_conc.Inv s) :
    pool_conc.Inv
      { pool := s.pool.release slot, callers := Function.update s.callers t .idle } := by
  obtain ⟨h1, h2⟩ := hs
  constructor
  · intro u slot1 hus
    by_cases hut : u = t
    · subst hut; simp at hus
    · simp only [Function.update_noteq hut] at hus
      have hne : slot ≠ slot1 := by
        intro e
        subst e
        exact hut (h2 u t slot hus ht)
      have := h1 u slot1 hus
      simp only [pool.flags, List.getElem?_map] at this
      simp [pool.release, pool.flags, List.getElem?_modify, hne, this]
  · intro u1 u2 slot1 hu1 hu2
    by_cases e1 : u1 = t
    · subst e1; simp at hu1
    · by_cases e2 : u2 = t
      · subst e2; simp at hu2
      · simp only [Function.update_noteq e1] at hu1
        simp only [Function.update_noteq e2] at hu2
        exact h2 u1 u2 slot1 hu1 hu2

theorem pool_conc.conc_inv_step (s : pool_conc) (e : pool_event) (hs : pool_conc.Inv s) :
    pool_conc.Inv (s.step e) := by
  cases e with
  | call t blocking =>
    simp only [pool_conc.step]
    cases hc : s.callers t with
    | idle => exact pool_conc.conc_inv_move s t _ (fun slot => by simp) hs
    | scanning b i => exact hs
    | waiting => exact hs
    | holding slot => exact hs
  | advance t =>
    simp only [pool_conc.step]
    cases hc : s.callers t with
    | idle => exact hs
    | scanning b i =>
      simp only
      cases hpq : s.pool.cons[i]? with
      | none =>
        refine pool_conc.conc_inv_move s t _ (fun slot => ?_) hs
        cases b <;> simp
      | some pq =>
        simp only [test_and_set]
        exact pool_conc.conc_inv_probe s t i b pq hpq hs
    | waiting => exact pool_conc.conc_inv_move s t _ (fun slot => by simp) hs
    | holding slot => exact hs
  | destroy t =>
    simp only [pool_conc.step]
    cases hc : s.callers t with
    | idle => exact hs
    | scanning b i => exact hs
    | waiting => exact hs
    | holding slot => exact pool_conc.conc_inv_destroy s t slot hc hs

theorem pool_conc.conc_inv_run (evs : List pool_event) (s : pool_conc) (hs : pool_conc.Inv s) :
    pool_conc.Inv (pool_conc.run evs s) := by
  induction evs generalizing s with
  | nil => exact hs
  | cons e evs ih =>
    simp only [pool_conc.run, List.foldl_cons]
    exact ih (s.step e) (pool_conc.conc_inv_step s e hs)

theorem pool_conc.conc_inv_init (cs : List connection) : pool_conc.Inv (pool_conc.init cs) := by
  constructor
  · intro t slot h
    simp [pool_conc.init] at h
  · intro t1 t2 slot h
    simp [pool_conc.init] at h

/-- C4: under every interleaving of the atomic actions of any number of callers
of `acquire` and `try_acquire` on one pool, starting from a fresh pool, two
callers that both hold a view of the same slot are the same caller, and a held
slot has its in-use flag set. -/
theorem pool_conc.exclusive (cs : List connection) (evs : List pool_event)
    (t1 t2 slot : Nat)
    (h1 : (pool_conc.run evs (pool_conc.init cs)).callers t1 = .holding slot)
    (h2 : (pool_conc.run evs (pool_conc.init cs)).callers t2 = .holding slot) :
    t1 = t2 ∧ (pool_conc.run evs (pool_conc.init cs)).pool.flags[slot]? = some true := by
  obtain ⟨hflag, huniq⟩ :=
    pool_conc.conc_inv_run evs (pool_conc.init cs) (pool_conc.conc_inv_init cs)
  exact ⟨huniq t1 t2 slot h1 h2, hflag t1 slot h1⟩

theorem pool_conc.exclusive_witness :
    (pool_conc.run sample_race
        (pool_conc.init [sample_connection, sample_connection])).callers 0 = .holding 0 ∧
    (pool_conc.run sample_race
        (pool_conc.init [sample_connection, sample_connection])).callers 1 = .holding 1 ∧
    (0 = 0 ∧
      (pool_conc.run sample_race
        (pool_conc.init [sample_connection, sample_connection])).pool.flags[0]? = some true) :=
  ⟨by decide, by decide,
   pool_conc.exclusive [sample_connection, sample_connection] sample_race 0 0 0
     (by decide) (by decide)⟩

end postgres

namespace postgres

theorem pool_conc.run_settled (s : pool_conc) (t n : Nat)
    (h : s.callers t = .idle ∨ ∃ k, s.callers t = .holding k) :
    pool_conc.run (List.replicate n (.advance t)) s = s := by
  induction n with
  | zero => rfl
  | succ n ih =>
    have hstep : s.step (.advance t) = s := by
      rcases h with h | ⟨k, h⟩ <;> simp [pool_conc.step, h]
    simp only [pool_conc.run, List.replicate_succ, List.foldl_cons, hstep]
    exact ih

/-- A caller of `try_acquire` that runs alone from position `pre.length` of the
loop ends where `pool.scan` on the remaining slots ends: same slots, and
holding the slot the pass returns, or idle when it returns the empty view. -/
theorem pool_conc.solo_pass (rest pre : List pool_con) (s : pool_conc) (t n : Nat)
    (hcons : s.pool.cons = pre ++ rest) (ht : s.callers t = .scanning false pre.length)
    (hn : rest.length < n) :
    (pool_conc.run (List.replicate n (.advance t)) s).pool =
        { s.pool with cons := pre ++ (pool.scan rest pre.length).cons } ∧
      (pool_conc.run (List.replicate n (.advance t)) s).callers =
        Function.update s.callers t
          (match (pool.scan rest pre.length).lease with
           | some k => .holding k
           | none => .idle) := by
  induction rest generalizing pre s n with
  | nil =>
    cases n with
    | zero => simp at hn
    | succ n =>
      have hnone : s.pool.cons[pre.length]? = none := by simp [hcons]
      have hstep : s.step (.advance t) =
          { s with callers := Function.update s.callers t .idle } := by
        simp [pool_conc.step, ht, hnone]
      simp only [pool_conc.run, List.replicate_succ, List.foldl_cons, hstep]
      have := pool_conc.run_settled { s with callers := Function.update s.callers t .idle } t n
        (Or.inl (by simp))
      simp only [pool_conc.run] at this
      rw [this]
      simp [pool.scan, ← hcons]
  | cons pq rest ih =>
    cases n with
    | zero => simp at hn
    | succ n =>
      have hsome : s.pool.cons[pre.length]? = some pq := by
        rw [hcons, List.getElem?_append_right (Nat.le_refl _)]
        simp
      have hset : s.pool.cons.set pre.length { pq with in_use := true } =
          pre ++ { pq with in_use := true } :: rest := by
        simp [hcons]
      cases hu : pq.in_use with
      | true =>
        have hstep : s.step (.advance t) =
            { pool := { s.pool with cons := pre ++ { pq with in_use := true } :: rest },
              callers := Function.update s.callers t (.scanning false (pre.length + 1)) } := by
          simp [pool_conc.step, ht, hsome, test_and_set, hu, hset]
        simp only [pool_conc.run, List.replicate_succ, List.foldl_cons, hstep]
        have hrec := ih (pre ++ [{ pq with in_use := true }])
          { pool := { s.pool with cons := pre ++ { pq with in_use := true } :: rest },
            callers := Function.update s.callers t (.scanning false (pre.length + 1)) } n
          (by simp) (by simp) (by simpa using hn)
        simp only [pool_conc.run] at hrec
        obtain ⟨h1, h2⟩ := hrec
        rw [h1, h2]
        simp [pool.scan, test_and_set, hu]
      | false =>
        have hstep : s.step (.advance t) =
            { pool := { s.pool with cons := pre ++ { pq with in_use := true } :: rest },
              callers := Function.update s.callers t (.holding pre.length) } := by
          simp [pool_conc.step, ht, hsome, test_and_set, hu, hset]
        simp only [pool_conc.run, List.replicate_succ, List.foldl_cons, hstep]
        have := pool_conc.run_settled
          { pool := { s.pool with cons := pre ++ { pq with in_use := true } :: rest },
            callers := Function.update s.callers t (.holding pre.length) } t n
          (Or.inr ⟨pre.length, by simp⟩)
        simp only [pool_conc.run] at this
        rw [this]
        simp [pool.scan, test_and_set, hu]

/-- A caller that goes through `try_acquire` with nobody else acting leaves the
pool that `pool.try_acquire` computes and holds the slot it returns, or is idle
again when it returns the empty view. -/
theorem pool_conc.solo_try_acquire (s : pool_conc) (t n : Nat) (ht : s.callers t = .idle)
    (hn : s.pool.cons.length < n) :
    (pool_conc.run (.call t false :: List.replicate n (.advance t)) s).pool =
        s.pool.try_acquire.pool ∧
      (pool_conc.run (.call t false :: List.replicate n (.advance t)) s).callers =
        Function.update s.callers t
          (match s.pool.try_acquire.lease with
           | some k => .holding k
           | none => .idle) := by
  have hstep : s.step (.call t false) =
      { s with callers := Function.update s.callers t (.scanning false 0) } := by
    simp [pool_conc.step, ht]
  have h := pool_conc.solo_pass s.pool.cons []
    { s with callers := Function.update s.callers t (.scanning false 0) } t n
    (by simp) (by simp) hn
  simp only [pool_conc.run, List.foldl_cons, hstep]
  simp only [pool_conc.run] at h
  obtain ⟨h1, h2⟩ := h
  rw [h1, h2]
  simp [pool.try_acquire]

end postgres

/-! ## Theorems: `acquire` -/

namespace postgres

theorem pool.scan_none (cs : List pool_con) (i0 : Nat)
    (h : (pool.scan cs i0).lease = none) :
    (∀ c ∈ cs, c.in_use = true) ∧ (pool.scan cs i0).cons = cs := by
  by_cases hf : ∃ c ∈ cs, c.in_use = false
  · obtain ⟨k, c, _, _, _, hs⟩ := pool.scan_free cs i0 hf
    rw [hs] at h
    cases h
  · have hb : ∀ c ∈ cs, c.in_use = true := by
      intro c hc
      cases hcu : c.in_use with
      | true => rfl
      | false => exact absurd ⟨c, hc, hcu⟩ hf
    exact ⟨hb, by rw [pool.scan_busy cs i0 hb]⟩

theorem pool.acquire_loop_found (wait : Nat → pool → pool) (fuel n m : Nat) (p : pool)
    (hm : m < fuel)
    (hbusy : ∀ j, j < m → ∀ c ∈ (pool.after_waits wait n j p).cons, c.in_use = true)
    (hfree : ∃ c ∈ (pool.after_waits wait n m p).cons, c.in_use = false) :
    pool.acquire_loop wait fuel n p =
      some { lease := (pool.after_waits wait n m p).try_acquire.lease,
             before := pool.after_waits wait n m p,
             pool := (pool.after_waits wait n m p).try_acquire.pool,
             waits := n + m } := by
  induction fuel generalizing n m p with
  | zero => omega
  | succ fuel ih =>
    cases m with
    | zero =>
      simp only [pool.after_waits] at hfree
      obtain ⟨k, c, _, _, _, hs⟩ := pool.scan_free p.cons 0 hfree
      simp [pool.acquire_loop, pool.try_acquire, pool.after_waits, hs]
    | succ m =>
      have hb0 : ∀ c ∈ p.cons, c.in_use = true := hbusy 0 (by omega)
      have hs := pool.scan_busy p.cons 0 hb0
      have hrec := ih (n + 1) m (wait n p) (by omega)
        (fun j hj => hbusy (j + 1) (by omega)) hfree
      unfold pool.acquire_loop
      simp only [hs]
      show pool.acquire_loop wait fuel (n + 1) (wait n p) = _
      rw [hrec]
      simp [pool.after_waits, Nat.add_assoc, Nat.add_comm 1 m]

theorem pool.acquire_loop_blocked (wait : Nat → pool → pool) (fuel n : Nat) (p : pool)
    (hbusy : ∀ j, j < fuel → ∀ c ∈ (pool.after_waits wait n j p).cons, c.in_use = true) :
    pool.acquire_loop wait fuel n p = none := by
  induction fuel generalizing n p with
  | zero => rfl
  | succ fuel ih =>
    have hb0 : ∀ c ∈ p.cons, c.in_use = true := hbusy 0 (by omega)
    have hs := pool.scan_busy p.cons 0 hb0
    unfold pool.acquire_loop
    simp only [hs]
    show pool.acquire_loop wait fuel (n + 1) (wait n p) = none
    exact ih (n + 1) (wait n p) (fun j hj => hbusy (j + 1) (by omega))

theorem pool.acquire_loop_returned (wait : Nat → pool → pool) (fuel n : Nat) (p : pool)
    (r : acquire_result) (h : pool.acquire_loop wait fuel n p = some r) :
    ∃ m, m < fuel ∧ r.waits = n + m ∧ r.before = pool.after_waits wait n m p ∧
      (∀ j, j < m → ∀ c ∈ (pool.after_waits wait n j p).cons, c.in_use = true) ∧
      (∃ c ∈ r.before.cons, c.in_use = false) ∧
      r.lease = r.before.try_acquire.lease ∧ r.pool = r.before.try_acquire.pool := by
  induction fuel generalizing n p with
  | zero => simp [pool.acquire_loop] at h
  | succ fuel ih =>
    unfold pool.acquire_loop at h
    cases hl : (pool.scan p.cons 0).lease with
    | none =>
      obtain ⟨hb, hcons⟩ := pool.scan_none p.cons 0 hl
      simp only [hl, hcons] at h
      obtain ⟨m, hm, hw, hbef, hbusy, hfree, hlease, hpool⟩ := ih (n + 1) (wait n p) h
      refine ⟨m + 1, by omega, by omega, hbef, ?_, hfree, hlease, hpool⟩
      intro j hj
      cases j with
      | zero => exact hb
      | succ j => exact hbusy j (by omega)
    | some i =>
      simp only [hl, Option.some.injEq] at h
      subst h
      obtain ⟨j, c, _, hj, hc, _⟩ := pool.scan_lease p.cons 0 i hl
      refine ⟨0, by omega, rfl, rfl, fun j hj => by omega, ?_, ?_, rfl⟩
      · exact ⟨c, List.mem_iff_getElem?.mpr ⟨j, hj⟩, hc⟩
      · simp [pool.try_acquire, hl]

theorem pool_conc.claim_step (s : pool_conc) (e : pool_event) (t k : Nat)
    (hnew : (s.step e).callers t = .holding k) (hold : s.callers t ≠ .holding k) :
    e = .advance t ∧ (∃ blocking, s.callers t = .scanning blocking k) ∧
      s.pool.flags[k]? = some false ∧ (s.step e).pool.flags = s.pool.flags.set k true := by
  have hother : ∀ (u : Nat) (c : caller),
      Function.update s.callers u c t = .holding k → u = t ∧ c = .holding k := by
    intro u c hq
    by_cases hut : t = u
    · subst hut
      simp only [Function.update_same] at hq
      exact ⟨rfl, hq⟩
    · simp only [Function.update_noteq hut] at hq
      exact absurd hq hold
  cases e with
  | call u blocking =>
    simp only [pool_conc.step] at hnew
    cases hc : s.callers u with
    | idle =>
      simp only [hc] at hnew
      have := (hother u _ hnew).2
      cases this
    | scanning b i => simp only [hc] at hnew; exact absurd hnew hold
    | waiting => simp only [hc] at hnew; exact absurd hnew hold
    | holding slot => simp only [hc] at hnew; exact absurd hnew hold
  | advance u =>
    simp only [pool_conc.step] at hnew ⊢
    cases hc : s.callers u with
    | idle => simp only [hc] at hnew; exact absurd hnew hold
    | scanning b i =>
      simp only [hc] at hnew ⊢
      cases hpq : s.pool.cons[i]? with
      | none =>
        simp only [hpq] at hnew
        have := (hother u _ hnew).2
        cases b <;> simp at this
      | some pq =>
        simp only [hpq, test_and_set] at hnew ⊢
        obtain ⟨hut, hck⟩ := hother u _ hnew
        subst hut
        cases hu : pq.in_use with
        | true => simp [hu] at hck
        | false =>
          simp only [hu, Bool.false_eq_true, if_false, caller.holding.injEq] at hck
          subst hck
          refine ⟨rfl, ⟨b, hc⟩, ?_, ?_⟩
          · simp [pool.flags, hpq, hu]
          · simp [pool.flags, List.map_set]
    | waiting =>
      simp only [hc] at hnew
      have := (hother u _ hnew).2
      cases this
    | holding slot => simp only [hc] at hnew; exact absurd hnew hold
  | destroy u =>
    simp only [pool_conc.step] at hnew
    cases hc : s.callers u with
    | idle => simp only [hc] at hnew; exact absurd hnew hold
    | scanning b i => simp only [hc] at hnew; exact absurd hnew hold
    | waiting => simp only [hc] at hnew; exact absurd hnew hold
    | holding slot =>
      simp only [hc] at hnew
      have := (hother u _ hnew).2
      cases this

theorem pool_conc.acquire_step (s : pool_conc) (e : pool_event) (t : Nat)
    (h : (∃ i, s.callers t = .scanning true i) ∨ s.callers t = .waiting) :
    (∃ i, (s.step e).callers t = .scanning true i) ∨ (s.step e).callers t = .waiting ∨
      ∃ k, (s.step e).callers t = .holding k := by
  have hkeep : (∃ i, s.callers t = .scanning true i) ∨ s.callers t = .waiting ∨
      ∃ k, s.callers t = .holding k := by
    rcases h with h | h
    · exact Or.inl h
    · exact Or.inr (Or.inl h)
  have hupd : ∀ (u : Nat) (c : caller), (u = t →
      (∃ i, c = .scanning true i) ∨ c = .waiting ∨ ∃ k, c = .holding k) →
      ((∃ i, Function.update s.callers u c t = .scanning true i) ∨
        Function.update s.callers u c t = .waiting ∨
        ∃ k, Function.update s.callers u c t = .holding k) := by
    intro u c hc
    by_cases hut : t = u
    · subst hut
      simpa using hc rfl
    · simpa [Function.update_noteq hut] using hkeep
  cases e with
  | call u blocking =>
    simp only [pool_conc.step]
    cases hc : s.callers u with
    | idle =>
      refine hupd u _ (fun hut => ?_)
      subst hut
      rcases h with ⟨i, h⟩ | h <;> rw [hc] at h <;> cases h
    | scanning b i => exact hkeep
    | waiting => exact hkeep
    | holding slot => exact hkeep
  | advance u =>
    simp only [pool_conc.step]
    cases hc : s.callers u with
    | idle => exact hkeep
    | scanning b i =>
      simp only
      have hb : u = t → b = true := by
        intro hut
        subst hut
        rcases h with ⟨i1, h⟩ | h <;> rw [hc] at h <;> cases h
        rfl
      cases hpq : s.pool.cons[i]? with
      | none =>
        refine hupd u _ (fun hut => ?_)
        rw [hb hut]
        exact Or.inr (Or.inl rfl)
      | some pq =>
        refine hupd u _ (fun hut => ?_)
        rw [hb hut]
        simp only [test_and_set]
        cases pq.in_use
        · exact Or.inr (Or.inr ⟨i, by simp⟩)
        · exact Or.inl ⟨i + 1, by simp⟩
    | waiting => exact hupd u _ (fun _ => Or.inl ⟨0, rfl⟩)
    | holding slot => exact hkeep
  | destroy u =>
    simp only [pool_conc.step]
    cases hc : s.callers u with
    | idle => exact hkeep
    | scanning b i => exact hkeep
    | waiting => exact hkeep
    | holding slot =>
      refine hupd u _ (fun hut => ?_)
      subst hut
      rcases h with ⟨i, h⟩ | h <;> rw [hc] at h <;> cases h

/-- C10: with a free slot, `acquire` returns from its first pass, with no wait,
the view and the pool that `try_acquire` yields on that state.  Whenever
`acquire` returns, it has made fewer passes than its fuel, every pass before
the last found all slots in use, the last pass started on the pool that the
waits left, where some slot was free, and the call returns what `try_acquire`
yields there: a non-empty view of the free slot of least position, clear before
and set on return, nothing else changed.  It returns in this way as soon as a
pass finds a free slot within the fuel, and has not returned while every pass
found all slots in use.  At the grain of single `test_and_set` calls under
interleaving, the action by which a caller comes to hold slot `k` is its own
`test_and_set` on `k`, whose flag was clear right before that action and is set
right after it, no other flag changing; and a caller inside `acquire` stays
inside it until it holds a slot: it never returns empty. -/
theorem pool.acquire_spec (wait : Nat → pool → pool) (fuel : Nat) (p : pool)
    (s : pool_conc) (e : pool_event) (t slot : Nat) :
    ((∃ c ∈ p.cons, c.in_use = false) →
      pool.acquire wait (fuel + 1) p =
        some { lease := p.try_acquire.lease, before := p, pool := p.try_acquire.pool,
               waits := 0 } ∧
      p.try_acquire.lease ≠ none) ∧
    (∀ r, pool.acquire wait fuel p = some r →
      (∃ k c, r.lease = some k ∧ r.before.cons[k]? = some c ∧ c.in_use = false ∧
        r.pool = { r.before with cons := r.before.cons.set k { c with in_use := true } } ∧
        r.pool.flags[k]? = some true ∧
        (∀ j, j < k → ∀ d, r.before.cons[j]? = some d → d.in_use = true)) ∧
      r.waits < fuel ∧
      r.before = pool.after_waits wait 0 r.waits p ∧
      (∀ j, j < r.waits → ∀ c ∈ (pool.after_waits wait 0 j p).cons, c.in_use = true) ∧
      r.lease = r.before.try_acquire.lease ∧
      r.pool = r.before.try_acquire.pool) ∧
    (∀ m, m < fuel →
      (∀ j, j < m → ∀ c ∈ (pool.after_waits wait 0 j p).cons, c.in_use = true) →
      (∃ c ∈ (pool.after_waits wait 0 m p).cons, c.in_use = false) →
      pool.acquire wait fuel p =
        some { lease := (pool.after_waits wait 0 m p).try_acquire.lease,
               before := pool.after_waits wait 0 m p,
               pool := (pool.after_waits wait 0 m p).try_acquire.pool,
               waits := m }) ∧
    ((∀ j, j < fuel → ∀ c ∈ (pool.after_waits wait 0 j p).cons, c.in_use = true) →
      pool.acquire wait fuel p = none) ∧
    ((s.step e).callers t = .holding slot → s.callers t ≠ .holding slot →
      e = .advance t ∧ (∃ blocking, s.callers t = .scanning blocking slot) ∧
      s.pool.flags[slot]? = some false ∧
      (s.step e).pool.flags[slot]? = some true ∧
      (s.step e).pool.flags = s.pool.flags.set slot true) ∧
    (((∃ i, s.callers t = .scanning true i) ∨ s.callers t = .waiting) →
      ((∃ i, (s.step e).callers t = .scanning true i) ∨ (s.step e).callers t = .waiting ∨
        ∃ k, (s.step e).callers t = .holding k) ∧
      (s.step e).callers t ≠ .idle) := by
  refine ⟨?_, ?_, ?_, ?_, ?_, ?_⟩
  · intro h
    obtain ⟨k, c, _, _, _, hs⟩ := pool.scan_free p.cons 0 h
    simp [pool.acquire, pool.acquire_loop, pool.try_acquire, hs]
  · intro r hr
    obtain ⟨m, hm, hw, hbef, hbusy, hfree, hlease, hpool⟩ :=
      pool.acquire_loop_returned wait fuel 0 p r hr
    have hwm : r.waits = m := by omega
    subst hwm
    obtain ⟨k, c, hk, hc, hmin, hs⟩ := pool.scan_free r.before.cons 0 hfree
    have hlt : k < r.before.cons.length := by
      rcases List.getElem?_eq_some_iff.mp hk with ⟨hlt, _⟩
      exact hlt
    refine ⟨⟨k, c, ?_, hk, hc, ?_, ?_, hmin⟩, hm, hbef, hbusy, hlease, hpool⟩
    · rw [hlease]
      simp [pool.try_acquire, hs]
    · rw [hpool]
      simp [pool.try_acquire, hs]
    · rw [hpool]
      simp [pool.try_acquire, hs, pool.flags, List.getElem?_set, hlt]
  · intro m hm hbusy hfree
    have h := pool.acquire_loop_found wait fuel 0 m p hm hbusy hfree
    simpa [pool.acquire] using h
  · intro hbusy
    exact pool.acquire_loop_blocked wait fuel 0 p hbusy
  · intro hnew hold
    obtain ⟨he, hscan, hclear, hflags⟩ := pool_conc.claim_step s e t slot hnew hold
    refine ⟨he, hscan, hclear, ?_, hflags⟩
    have hlt : slot < s.pool.flags.length := by
      rcases List.getElem?_eq_some_iff.mp hclear with ⟨hlt, _⟩
      exact hlt
    rw [hflags]
    simp [List.getElem?_set, hlt]
  · intro h
    have hstay := pool_conc.acquire_step s e t h
    refine ⟨hstay, ?_⟩
    intro hidle
    rcases hstay with ⟨i, hi⟩ | hi | ⟨k, hi⟩ <;> rw [hidle] at hi <;> cases hi

theorem pool.acquire_spec_witness :
    ((∃ c ∈ sample_pool.cons, c.in_use = false) ∧
      pool.acquire sample_wait (0 + 1) sample_pool =
        some { lease := some 1, before := sample_pool, pool := sample_pool.try_acquire.pool,
               waits := 0 }) ∧
    (pool.acquire sample_wait 2 sample_full_pool =
        some { lease := some 1, before := sample_full_pool.release 1,
               pool := sample_full_pool, waits := 1 } ∧
      (1 < 2 ∧
        sample_full_pool.release 1 = pool.after_waits sample_wait 0 1 sample_full_pool ∧
        ∃ k c, (some 1 : conview) = some k ∧
          (sample_full_pool.release 1).cons[k]? = some c ∧ c.in_use = false ∧
          sample_full_pool.flags[k]? = some true)) ∧
    ((∀ j, j < 1 → ∀ c ∈ (pool.after_waits sample_wait 0 j sample_full_pool).cons,
        c.in_use = true) ∧
      pool.acquire sample_wait 1 sample_full_pool = none) ∧
    ((((pool_conc.init [sample_connection]).step (.call 0 true)).step (.advance 0)).callers 0
        = .holding 0 ∧
      ((pool_conc.init [sample_connection]).step (.call 0 true)).callers 0 ≠ .holding 0 ∧
      ((pool_conc.init [sample_connection]).step (.call 0 true)).pool.flags[0]? = some false ∧
      (((pool_conc.init [sample_connection]).step (.call 0 true)).step (.advance 0)).pool.flags[0]?
        = some true) := by
  have hfree : ∃ c ∈ sample_pool.cons, c.in_use = false :=
    ⟨⟨sample_connection, false⟩, by decide, rfl⟩
  have hret : pool.acquire sample_wait 2 sample_full_pool =
      some { lease := some 1, before := sample_full_pool.release 1,
             pool := sample_full_pool, waits := 1 } := by decide
  have hbusy : ∀ j, j < 1 → ∀ c ∈ (pool.after_waits sample_wait 0 j sample_full_pool).cons,
      c.in_use = true := by
    intro j hj
    have : j = 0 := by omega
    subst this
    decide
  have hnew : (((pool_conc.init [sample_connection]).step (.call 0 true)).step
      (.advance 0)).callers 0 = .holding 0 := by decide
  have hold : ((pool_conc.init [sample_connection]).step (.call 0 true)).callers 0
      ≠ .holding 0 := by decide
  refine ⟨⟨hfree, ?_⟩, ⟨hret, ?_⟩, ⟨hbusy, ?_⟩, hnew, hold, ?_⟩
  · have h := ((pool.acquire_spec sample_wait 0 sample_pool (pool_conc.init []) (.call 0 true)
      0 0).1 hfree).1
    rw [h]
    decide
  · obtain ⟨⟨k, c, h1, h2, h3, _, h5, _⟩, hlt, hbef, _⟩ :=
      (pool.acquire_spec sample_wait 2 sample_full_pool (pool_conc.init []) (.call 0 true)
        0 0).2.1 _ hret
    exact ⟨hlt, hbef, k, c, h1, h2, h3, h5⟩
  · exact (pool.acquire_spec sample_wait 1 sample_full_pool (pool_conc.init []) (.call 0 true)
      0 0).2.2.2.1 hbusy
  · have h := (pool.acquire_spec sample_wait 0 sample_pool
      ((pool_conc.init [sample_connection]).step (.call 0 true)) (.advance 0) 0 0).2.2.2.2.1
      hnew hold
    exact ⟨h.2.2.1, h.2.2.2.1⟩

end postgres

/-! ## Theorems: results -/

namespace postgres

open ExecStatusType

/-- C7: `cmd_ok` and `tuples_ok` are never both true; `cmd_ok` is true exactly
when the status is command-ok and `tuples_ok` exactly when it is tuples-ok; a
result whose status is bad-response or an error status has both false; a
default-constructed result and a result built from the null handle have status
bad-response and both false. -/
theorem result.status_predicates (r : result) :
    ¬ (r.cmd_ok = some true ∧ r.tuples_ok = some true) ∧
    (r.cmd_ok = some true ↔ r.status = some PGRES_COMMAND_OK) ∧
    (r.tuples_ok = some true ↔ r.status = some PGRES_TUPLES_OK) ∧
    (∀ s, r.status = some s → s.is_failure = true →
      r.cmd_ok = some false ∧ r.tuples_ok = some false) ∧
    (result.ctor.status = some PGRES_BAD_RESPONSE ∧ result.ctor.handle = none ∧
      result.ctor.cmd_ok = some false ∧ result.ctor.tuples_ok = some false) ∧
    ((result.ctor_res none).status = some PGRES_BAD_RESPONSE ∧
      (result.ctor_res none).cmd_ok = some false ∧
      (result.ctor_res none).tuples_ok = some false) := by
  refine ⟨?_, ?_, ?_, ?_, by decide, by decide⟩
  · rcases r with ⟨_ | d⟩
    · simp [result.cmd_ok]
    · simp only [result.cmd_ok, result.tuples_ok, Option.map_some', Option.some.injEq,
        decide_eq_true_eq]
      rintro ⟨h1, h2⟩
      rw [h1] at h2
      cases h2
  · rcases r with ⟨_ | d⟩ <;> simp [result.cmd_ok, result.status]
  · rcases r with ⟨_ | d⟩ <;> simp [result.tuples_ok, result.status]
  · intro s hs hf
    rcases r with ⟨_ | d⟩
    · simp [result.status] at hs
    · simp only [result.status, Option.map_some', Option.some.injEq] at hs
      subst hs
      cases hd : d.status <;> simp [ExecStatusType.is_failure, hd] at hf <;>
        simp [result.cmd_ok, result.tuples_ok, hd]

theorem result.status_predicates_witness :
    (result.ctor_res (some { sample_PGresult with resultStatus := PGRES_FATAL_ERROR })).status
        = some PGRES_FATAL_ERROR ∧
    PGRES_FATAL_ERROR.is_failure = true ∧
    (result.ctor_res (some { sample_PGresult with resultStatus := PGRES_FATAL_ERROR })).cmd_ok
        = some false ∧
    (result.ctor_res (some { sample_PGresult with resultStatus := PGRES_FATAL_ERROR })).tuples_ok
        = some false :=
  ⟨rfl, rfl,
   (result.status_predicates
      (result.ctor_res (some { sample_PGresult with resultStatus := PGRES_FATAL_ERROR }))).2.2.2.1
      PGRES_FATAL_ERROR rfl rfl⟩

theorem result.emplace_all_some (n : Nat) (g : Nat → String) :
    result.emplace_all ((List.range n).map (fun f => some (g f))) =
      some ((List.range n).map g) := by
  have key : ∀ l : List Nat, result.emplace_all (l.map (fun f => some (g f))) = some (l.map g) := by
    intro l
    induction l with
    | nil => rfl
    | cons a l ih => simp [result.emplace_all, ih]
  exact key _

theorem PQgetvalue_in_range (g : PGresult) (row field : Nat)
    (hr : row < g.tuples.length) (hf : field < g.numAttributes) :
    PQgetvalue (some g) (row : Int) (field : Int) = some (g.text row field) := by
  have h1 : (row : Int) < (g.tuples.length : Int) := by exact_mod_cast hr
  have h2 : (field : Int) < (g.numAttributes : Int) := by exact_mod_cast hf
  simp [PQgetvalue, h1, h2]

/-- C8: for a row index within `num_rows()`, `get_row` yields a sequence of
exactly `num_fields()` values whose entry at every field index within
`num_fields()` is what `get_value` yields for that row and field; where the
cell is SQL NULL both are the empty string. -/
theorem result.get_row_spec (r : result) (row rows fields : Nat)
    (hrows : r.num_rows = some rows) (hfields : r.num_fields = some fields)
    (hrow : row < rows) :
    ∃ vs, r.get_row (row : Int) = some vs ∧ vs.length = fields ∧
      (∀ field : Nat, field < fields → r.get_value (row : Int) (field : Int) = vs[field]?) ∧
      (∀ (field : Nat) (g : PGresult) (cells : List (Option String)), field < fields → r.handle = some g → g.tuples[row]? = some cells →
        cells[field]? = some none → vs[field]? = some "") := by
  rcases r with ⟨_ | ⟨res, status⟩⟩
  · simp [result.num_rows] at hrows
  · cases res with
    | none =>
      simp [result.num_rows, PQntuples] at hrows
      omega
    | some g =>
      simp only [result.num_rows, result.num_fields, Option.map_some', PQntuples, PQnfields,
        Option.some.injEq] at hrows hfields
      subst hrows hfields
      have hmap : (List.range g.numAttributes).map
            (fun field : Nat => PQgetvalue (some g) (row : Int) (field : Int)) =
          (List.range g.numAttributes).map (fun field : Nat => some (g.text row field)) := by
        apply List.map_congr_left
        intro f hf
        exact PQgetvalue_in_range g row f hrow (List.mem_range.mp hf)
      refine ⟨(List.range g.numAttributes).map (g.text row), ?_, by simp, ?_, ?_⟩
      · simp only [result.get_row, PQnfields, hmap]
        exact result.emplace_all_some g.numAttributes (g.text row)
      · intro field hf
        simp [result.get_value, PQgetvalue_in_range g row field hrow hf, List.getElem?_range, hf]
      · intro field g1 cells hf hg hcells hnull
        simp [result.handle] at hg
        subst hg
        simp [List.getElem?_range, hf, PGresult.text, hcells, hnull]

theorem result.get_row_spec_witness :
    (result.ctor_res (some sample_PGresult)).num_rows = some 2 ∧
    (result.ctor_res (some sample_PGresult)).num_fields = some 2 ∧
    1 < 2 ∧
    ∃ vs, (result.ctor_res (some sample_PGresult)).get_row ((1 : Nat) : Int) = some vs ∧
      vs.length = 2 ∧
      (∀ field : Nat, field < 2 →
        (result.ctor_res (some sample_PGresult)).get_value ((1 : Nat) : Int) (field : Int)
          = vs[field]?) ∧
      (∀ (field : Nat) (g : PGresult) (cells : List (Option String)), field < 2 →
        (result.ctor_res (some sample_PGresult)).handle = some g →
        g.tuples[1]? = some cells → cells[field]? = some none → vs[field]? = some "") :=
  ⟨rfl, rfl, by decide,
   result.get_row_spec (result.ctor_res (some sample_PGresult)) 1 2 2 rfl rfl (by decide)⟩

end postgres

/-! ## Theorems: ownership of result handles -/

namespace postgres

theorem result_heap.InvA_drop (o : Nat → Option Nat) (c : List Nat) (n a : Nat)
    (h : result_heap.InvA o c n) :
    result_heap.InvA (Function.update o a none) (c ++ (o a).toList) n := by
  obtain ⟨h1, h2, h3, h4, h5⟩ := h
  refine ⟨?_, ?_, ?_, ?_, ?_⟩
  · cases hoa : o a with
    | none => simpa using h1
    | some id =>
      have := (h3 a id hoa).2
      rw [Option.toList_some, List.nodup_append]
      refine ⟨h1, List.nodup_singleton id, ?_⟩
      intro x hx hx1
      simp only [List.mem_singleton] at hx1
      subst hx1
      exact this hx
  · intro id hid
    rcases List.mem_append.mp hid with hid | hid
    · exact h2 id hid
    · simp only [Option.mem_toList, Option.mem_def] at hid
      exact (h3 a id hid).1
  · intro b id hb
    by_cases hba : b = a
    · subst hba; simp at hb
    · rw [Function.update_noteq hba] at hb
      refine ⟨(h3 b id hb).1, ?_⟩
      intro hmem
      rcases List.mem_append.mp hmem with hmem | hmem
      · exact (h3 b id hb).2 hmem
      · simp only [Option.mem_toList, Option.mem_def] at hmem
        exact hba (h4 b a id hb hmem)
  · intro b1 b2 id hb1 hb2
    by_cases e1 : b1 = a
    · subst e1; simp at hb1
    · by_cases e2 : b2 = a
      · subst e2; simp at hb2
      · rw [Function.update_noteq e1] at hb1
        rw [Function.update_noteq e2] at hb2
        exact h4 b1 b2 id hb1 hb2
  · intro id hid
    rcases h5 id hid with hc | ⟨b, hb⟩
    · exact Or.inl (List.mem_append_left _ hc)
    · by_cases hba : b = a
      · subst hba
        left
        apply List.mem_append_right
        simp [hb]
      · exact Or.inr ⟨b, by rw [Function.update_noteq hba]; exact hb⟩

theorem result_heap.InvA_move (o : Nat → Option Nat) (c : List Nat) (n dst src : Nat)
    (hne : dst ≠ src) (hdst : o dst = none) (h : result_heap.InvA o c n) :
    result_heap.InvA (Function.update (Function.update o src none) dst (o src)) c n := by
  obtain ⟨h1, h2, h3, h4, h5⟩ := h
  have key : ∀ b id, Function.update (Function.update o src none) dst (o src) b = some id →
      (b = dst ∧ o src = some id) ∨ (b ≠ dst ∧ b ≠ src ∧ o b = some id) := by
    intro b id hb
    by_cases e1 : b = dst
    · subst e1
      rw [Function.update_same] at hb
      exact Or.inl ⟨rfl, hb⟩
    · rw [Function.update_noteq e1] at hb
      by_cases e2 : b = src
      · subst e2; simp at hb
      · rw [Function.update_noteq e2] at hb
        exact Or.inr ⟨e1, e2, hb⟩
  refine ⟨h1, h2, ?_, ?_, ?_⟩
  · intro b id hb
    rcases key b id hb with ⟨_, hs⟩ | ⟨_, _, hs⟩
    · exact h3 src id hs
    · exact h3 b id hs
  · intro b1 b2 id hb1 hb2
    rcases key b1 id hb1 with ⟨e1, hs1⟩ | ⟨e1, f1, hs1⟩ <;>
      rcases key b2 id hb2 with ⟨e2, hs2⟩ | ⟨e2, f2, hs2⟩
    · rw [e1, e2]
    · exact absurd (h4 src b2 id hs1 hs2) (fun e => f2 e.symm)
    · exact absurd (h4 b1 src id hs1 hs2) f1
    · exact h4 b1 b2 id hs1 hs2
  · intro id hid
    rcases h5 id hid with hc | ⟨b, hb⟩
    · exact Or.inl hc
    · right
      by_cases e : b = src
      · subst e
        exact ⟨dst, by rw [Function.update_same]; exact hb⟩
      · have e1 : b ≠ dst := by
          intro e1
          subst e1
          rw [hdst] at hb
          cases hb
        exact ⟨b, by rw [Function.update_noteq e1, Function.update_noteq e]; exact hb⟩

theorem result_heap.InvA_fresh (o : Nat → Option Nat) (c : List Nat) (n a : Nat)
    (ha : o a = none) (h : result_heap.InvA o c n) :
    result_heap.InvA (Function.update o a (some n)) c (n + 1) := by
  obtain ⟨h1, h2, h3, h4, h5⟩ := h
  refine ⟨h1, fun id hid => Nat.lt_succ_of_lt (h2 id hid), ?_, ?_, ?_⟩
  · intro b id hb
    by_cases e : b = a
    · subst e
      rw [Function.update_same] at hb
      cases hb
      exact ⟨Nat.lt_succ_self _, fun hmem => Nat.lt_irrefl _ (h2 _ hmem)⟩
    · rw [Function.update_noteq e] at hb
      exact ⟨Nat.lt_succ_of_lt (h3 b id hb).1, (h3 b id hb).2⟩
  · intro b1 b2 id hb1 hb2
    by_cases e1 : b1 = a
    · by_cases e2 : b2 = a
      · rw [e1, e2]
      · subst e1
        rw [Function.update_same] at hb1
        rw [Function.update_noteq e2] at hb2
        cases hb1
        exact absurd (h3 b2 _ hb2).1 (Nat.lt_irrefl _)
    · by_cases e2 : b2 = a
      · subst e2
        rw [Function.update_same] at hb2
        rw [Function.update_noteq e1] at hb1
        cases hb2
        exact absurd (h3 b1 _ hb1).1 (Nat.lt_irrefl _)
      · rw [Function.update_noteq e1] at hb1
        rw [Function.update_noteq e2] at hb2
        exact h4 b1 b2 id hb1 hb2
  · intro id hid
    by_cases e : id = n
    · subst e
      exact Or.inr ⟨a, by rw [Function.update_same]⟩
    · have hlt : id < n := by omega
      rcases h5 id hlt with hc | ⟨b, hb⟩
      · exact Or.inl hc
      · have e1 : b ≠ a := by
          intro e1
          subst e1
          rw [ha] at hb
          cases hb
        exact Or.inr ⟨b, by rw [Function.update_noteq e1]; exact hb⟩

theorem result_heap.owner_id_update (objs : Nat → Option result) (a : Nat) (x : Option result)
    (c : List Nat) (n : Nat) :
    result_heap.owner_id { objs := Function.update objs a x, cleared := c, next := n } =
      Function.update (fun b => result.owned_id (objs b)) a (result.owned_id x) := by
  funext b
  by_cases e : b = a
  · subst e; simp [result_heap.owner_id]
  · simp [result_heap.owner_id, Function.update_noteq e]

theorem result.delete_data_eq (x : result) (c : List Nat) :
    result.delete_data x.data c = c ++ (result.owned_id (some x)).toList := by
  rcases x with ⟨_ | ⟨_ | g, st⟩⟩ <;>
    simp [result.delete_data, result.private_data.dtor, result.owned_id, result.handle]

end postgres

namespace postgres

theorem result_heap.owned_update (objs : Nat → Option result) (a : Nat) (x : Option result) :
    (fun b => result.owned_id (Function.update objs a x b)) =
      Function.update (fun b => result.owned_id (objs b)) a (result.owned_id x) := by
  funext b
  by_cases e : b = a
  · subst e; simp
  · simp [Function.update_noteq e]

theorem result_heap.InvA_congr (o o1 : Nat → Option Nat) (c c1 : List Nat) (n : Nat)
    (ho : o1 = o) (hc : c1 = c) (h : result_heap.InvA o c n) : result_heap.InvA o1 c1 n := by
  subst ho hc
  exact h

theorem result_heap.heap_inv_step (h : result_heap) (op : result_op) (hi : result_heap.Inv h) :
    result_heap.Inv (h.step op) := by
  have ho : h.owner_id = fun b => result.owned_id (h.objs b) := rfl
  cases op with
  | construct a =>
    simp only [result_heap.step]
    cases ha : h.objs a with
    | some r => exact hi
    | none =>
      have hoa : h.owner_id a = none := by simp [result_heap.owner_id, ha, result.owned_id]
      refine result_heap.InvA_congr _ _ _ _ _ ?_ ?_ (result_heap.InvA_drop _ _ _ a hi)
      · show (fun b => result.owned_id (Function.update h.objs a (some result.ctor) b)) = _
        rw [result_heap.owned_update]
        rfl
      · simp [hoa]
  | wrap a res =>
    simp only [result_heap.step]
    cases ha : h.objs a with
    | some r => exact hi
    | none =>
      have hoa : h.owner_id a = none := by simp [result_heap.owner_id, ha, result.owned_id]
      cases res with
      | none =>
        refine result_heap.InvA_congr _ _ _ _ _ ?_ ?_ (result_heap.InvA_drop _ _ _ a hi)
        · show (fun b => result.owned_id
              (Function.update h.objs a (some (result.ctor_res none)) b)) = _
          rw [result_heap.owned_update]
          rfl
        · simp [hoa]
      | some g =>
        refine result_heap.InvA_congr _ _ _ _ _ ?_ rfl
          (result_heap.InvA_fresh _ _ _ a hoa hi)
        show (fun b => result.owned_id (Function.update h.objs a
            (some (result.ctor_res (some { g with id := h.next }))) b)) = _
        rw [result_heap.owned_update]
        rfl
  | move_construct a src =>
    simp only [result_heap.step]
    cases ha : h.objs a with
    | some r => exact hi
    | none =>
      cases hs : h.objs src with
      | none => exact hi
      | some other =>
        have hoa : h.owner_id a = none := by simp [result_heap.owner_id, ha, result.owned_id]
        have hne : a ≠ src := by
          intro e
          subst e
          rw [ha] at hs
          cases hs
        have hos : h.owner_id src = result.owned_id (some other) := by
          simp [result_heap.owner_id, hs]
        refine result_heap.InvA_congr _ _ _ _ _ ?_ rfl
          (result_heap.InvA_move _ _ _ a src hne hoa hi)
        show (fun b => result.owned_id (Function.update (Function.update h.objs src
            (some (result.ctor_move other).2)) a (some (result.ctor_move other).1) b)) = _
        rw [result_heap.owned_update, result_heap.owned_update, hos]
        rfl
  | move_assign dst src =>
    simp only [result_heap.step]
    cases hs : h.objs src with
    | none => exact hi
    | some other =>
      have hos : h.owner_id src = result.owned_id (some other) := by
        simp [result_heap.owner_id, hs]
      by_cases e : dst = src
      · subst e
        simp only [Function.update_same, Function.update_idem]
        refine result_heap.InvA_congr _ _ _ _ _ ?_ ?_ hi
        · show (fun b => result.owned_id (Function.update h.objs dst _ b)) = _
          rw [result_heap.owned_update, ho]
          funext b
          by_cases eb : b = dst
          · subst eb
            simp [hs, result.reset_data, result.release_data, result.owned_id, result.handle]
          · simp [Function.update_noteq eb]
        · simp [result.reset_data, result.release_data, result.delete_data]
      · simp only [Function.update_noteq e]
        cases hd : h.objs dst with
        | none => exact hi
        | some this =>
          have hod : h.owner_id dst = result.owned_id (some this) := by
            simp [result_heap.owner_id, hd]
          have hdrop := result_heap.InvA_drop _ _ _ dst hi
          have hmove := result_heap.InvA_move _ _ _ dst src e (by simp) hdrop
          refine result_heap.InvA_congr _ _ _ _ _ ?_ ?_ hmove
          · show (fun b => result.owned_id (Function.update (Function.update h.objs src _) dst
                _ b)) = _
            rw [result_heap.owned_update, result_heap.owned_update, ← ho]
            funext b
            by_cases eb : b = dst
            · subst eb
              simp [Function.update_noteq (Ne.symm e), hos, result.reset_data,
                result.release_data, result.owned_id, result.handle]
            · by_cases eb1 : b = src
              · subst eb1
                simp [Function.update_noteq eb, result.release_data, result.owned_id,
                  result.handle]
              · simp [Function.update_noteq eb, Function.update_noteq eb1]
          · simp only [result.reset_data, result.delete_data_eq, hod]
  | destroy a =>
    simp only [result_heap.step]
    cases ha : h.objs a with
    | none => exact hi
    | some r =>
      have hoa : h.owner_id a = result.owned_id (some r) := by
        simp [result_heap.owner_id, ha]
      refine result_heap.InvA_congr _ _ _ _ _ ?_ ?_ (result_heap.InvA_drop _ _ _ a hi)
      · show (fun b => result.owned_id (Function.update h.objs a none b)) = _
        rw [result_heap.owned_update]
        rfl
      · simp only [result.dtor, result.delete_data_eq, hoa]

theorem result_heap.heap_inv_run (ops : List result_op) (h : result_heap)
    (hi : result_heap.Inv h) : result_heap.Inv (result_heap.run ops h) := by
  induction ops generalizing h with
  | nil => exact hi
  | cons op ops ih =>
    simp only [result_heap.run, List.foldl_cons]
    exact ih (h.step op) (result_heap.heap_inv_step h op hi)

theorem result_heap.heap_inv_empty : result_heap.Inv result_heap.empty := by
  refine ⟨by simp [result_heap.empty], ?_, ?_, ?_, ?_⟩
  · intro id hid; simp [result_heap.empty] at hid
  · intro a id h; simp [result_heap.empty, result_heap.owner_id, result.owned_id] at h
  · intro a b id h; simp [result_heap.empty, result_heap.owner_id, result.owned_id] at h
  · intro id hid; simp [result_heap.empty] at hid

end postgres

namespace postgres

open ExecStatusType

/-- C9 as stated fails: the source of a move is left with a null `data`, which
is not the state of a default-constructed result (non-null `data`, no handle,
status bad-response); it holds no status at all and `cmd_ok` on it is
undefined, where the default-constructed result answers `false`. -/
theorem result.moved_from_not_default :
    (result.ctor_move (result.ctor_res (some sample_PGresult))).2 ≠ result.ctor ∧
    (result.ctor_move (result.ctor_res (some sample_PGresult))).2.status
      ≠ some PGRES_BAD_RESPONSE ∧
    (result.ctor_move (result.ctor_res (some sample_PGresult))).2.cmd_ok = none ∧
    result.ctor.cmd_ok = some false ∧
    (result.assign result.ctor (result.ctor_res (some sample_PGresult)) []).2.1 ≠ result.ctor := by
  decide

theorem result_heap.step_cleared (h : result_heap) (op : result_op) :
    (h.step op).cleared = h.cleared ++
      (match op with
       | .destroy a => (h.owner_id a).toList
       | .move_assign dst src =>
         if dst = src ∨ h.objs src = none then [] else (h.owner_id dst).toList
       | _ => []) := by
  cases op with
  | construct a =>
    simp only [result_heap.step]
    cases h.objs a <;> simp
  | wrap a res =>
    simp only [result_heap.step]
    cases h.objs a <;> cases res <;> simp
  | move_construct a src =>
    simp only [result_heap.step]
    cases h.objs a <;> cases h.objs src <;> simp
  | move_assign dst src =>
    simp only [result_heap.step]
    cases hs : h.objs src with
    | none => simp
    | some other =>
      by_cases e : dst = src
      · subst e
        simp [result.reset_data, result.release_data, result.delete_data]
      · simp only [Function.update_noteq e]
        cases hd : h.objs dst with
        | none => simp [e, result_heap.owner_id, hd, result.owned_id]
        | some this =>
          simp [e, result.reset_data, result.delete_data_eq, result_heap.owner_id, hd]
  | destroy a =>
    simp only [result_heap.step]
    cases ha : h.objs a with
    | none => simp [result_heap.owner_id, ha, result.owned_id]
    | some r => simp [result.dtor, result.delete_data_eq, result_heap.owner_id, ha]

/-- C9, amended: move construction, and move assignment between two distinct
results, give the destination the source's `data` (handle and status) and
leave the source with null `data`, owning no handle and holding no status;
move assignment releases the handle the destination owned before; a result
move-assigned to itself is unchanged.  Along every program, the release log
grows only at a destruction, by the handle of the destroyed object, and at a
move assignment between distinct objects, by the destination's previous
handle; and every handle created so far is either released exactly once and
owned by no object, or not released and owned by exactly one live object, so
that once no object is alive every handle has been released exactly once. -/
theorem result.move_ownership (this other : result) (cleared : List Nat)
    (ops : List result_op) (h : result_heap) (op : result_op) (dst src : Nat) :
    ((result.ctor_move other).1.data = other.data ∧
      (result.ctor_move other).1.handle = other.handle ∧
      (result.ctor_move other).1.status = other.status ∧
      (result.ctor_move other).2.data = none ∧
      (result.ctor_move other).2.handle = none ∧
      (result.ctor_move other).2.status = none) ∧
    ((result.assign this other cleared).1.data = other.data ∧
      (result.assign this other cleared).2.1.data = none ∧
      (result.assign this other cleared).2.2 =
        cleared ++ (this.handle.map (fun g => g.id)).toList) ∧
    (dst ≠ src → h.objs dst = some this → h.objs src = some other →
      (h.step (.move_assign dst src)).objs dst = some (result.assign this other h.cleared).1 ∧
      (h.step (.move_assign dst src)).objs src = some (result.assign this other h.cleared).2.1 ∧
      (h.step (.move_assign dst src)).cleared = (result.assign this other h.cleared).2.2) ∧
    (h.objs src = some other → (h.step (.move_assign src src)).objs src = some other ∧
      (h.step (.move_assign src src)).cleared = h.cleared) ∧
    ((h.step op).cleared = h.cleared ++
      (match op with
       | .destroy a => (h.owner_id a).toList
       | .move_assign d s => if d = s ∨ h.objs s = none then [] else (h.owner_id d).toList
       | _ => [])) ∧
    (∀ id, id < (result_heap.run ops result_heap.empty).next →
      ((result_heap.run ops result_heap.empty).cleared.count id = 1 ∧
        ∀ a, (result_heap.run ops result_heap.empty).owner_id a ≠ some id) ∨
      ((result_heap.run ops result_heap.empty).cleared.count id = 0 ∧
        ∃ a, (result_heap.run ops result_heap.empty).owner_id a = some id ∧
          ∀ b, (result_heap.run ops result_heap.empty).owner_id b = some id → b = a)) ∧
    ((∀ a, (result_heap.run ops result_heap.empty).objs a = none) →
      ∀ id, id < (result_heap.run ops result_heap.empty).next →
        (result_heap.run ops result_heap.empty).cleared.count id = 1) := by
  obtain ⟨h1, h2, h3, h4, h5⟩ := result_heap.heap_inv_run ops result_heap.empty result_heap.heap_inv_empty
  have hacc : ∀ id, id < (result_heap.run ops result_heap.empty).next →
      ((result_heap.run ops result_heap.empty).cleared.count id = 1 ∧
        ∀ a, (result_heap.run ops result_heap.empty).owner_id a ≠ some id) ∨
      ((result_heap.run ops result_heap.empty).cleared.count id = 0 ∧
        ∃ a, (result_heap.run ops result_heap.empty).owner_id a = some id ∧
          ∀ b, (result_heap.run ops result_heap.empty).owner_id b = some id → b = a) := by
    intro id hid
    by_cases hc : id ∈ (result_heap.run ops result_heap.empty).cleared
    · left
      exact ⟨List.count_eq_one_of_mem h1 hc, fun a ha => (h3 a id ha).2 hc⟩
    · right
      rcases h5 id hid with hc1 | ⟨a, ha⟩
      · exact absurd hc1 hc
      · exact ⟨List.count_eq_zero_of_not_mem hc, a, ha, fun b hb => h4 b a id hb ha⟩
  refine ⟨?_, ?_, ?_, ?_, result_heap.step_cleared h op, hacc, ?_⟩
  · simp [result.ctor_move, result.handle, result.status]
  · refine ⟨rfl, rfl, ?_⟩
    simp only [result.assign, result.reset_data, result.delete_data_eq]
    rcases this with ⟨_ | d⟩ <;> simp [result.owned_id, result.handle]
  · intro hne hd hs
    simp [result_heap.step, hs, hd, Function.update_noteq hne, result.assign,
      Function.update_noteq (Ne.symm hne)]
  · intro hs
    simp [result_heap.step, hs, result.reset_data, result.release_data, result.delete_data]
  · intro hdead id hid
    rcases hacc id hid with ⟨hc, _⟩ | ⟨_, a, ha, _⟩
    · exact hc
    · simp [result_heap.owner_id, hdead a, result.owned_id] at ha

theorem result.move_ownership_witness :
    ((1 : Nat) ≠ 0 ∧
      (result_heap.run [.wrap 0 (some sample_PGresult), .construct 1]
        result_heap.empty).objs 1 = some result.ctor ∧
      (result_heap.run [.wrap 0 (some sample_PGresult), .construct 1]
        result_heap.empty).objs 0 = some (result.ctor_res (some sample_PGresult)) ∧
      ((result_heap.run [.wrap 0 (some sample_PGresult), .construct 1]
        result_heap.empty).step (.move_assign 1 0)).objs 0 = some { data := none }) ∧
    (0 < (result_heap.run sample_program result_heap.empty).next ∧
      (result_heap.run sample_program result_heap.empty).cleared.count 0 = 1) := by
  have hd : (result_heap.run [.wrap 0 (some sample_PGresult), .construct 1]
      result_heap.empty).objs 1 = some result.ctor := by decide
  have hs : (result_heap.run [.wrap 0 (some sample_PGresult), .construct 1]
      result_heap.empty).objs 0 = some (result.ctor_res (some sample_PGresult)) := by decide
  have hn : 0 < (result_heap.run sample_program result_heap.empty).next := by decide
  have hdead : ∀ a, (result_heap.run sample_program result_heap.empty).objs a = none := by
    intro a
    simp [sample_program, result_heap.run, result_heap.step, result_heap.empty,
      Function.update, result.ctor_move, result.release_data, result.reset_data]
    split_ifs <;> intros <;> first | rfl | omega
  have key := result.move_ownership result.ctor (result.ctor_res (some sample_PGresult)) []
    sample_program
    (result_heap.run [.wrap 0 (some sample_PGresult), .construct 1] result_heap.empty)
    (.destroy 0) 1 0
  exact ⟨⟨by decide, hd, hs, (key.2.2.1 (by decide) hd hs).2.1⟩, hn, key.2.2.2.2.2.2 hdead 0 hn⟩

end postgres

/-! ## Theorems: establishing connections -/

namespace postgres

theorem connection.ctor_ok (rt : PQ) (dbname : String)
    (h : rt.attempt_ok dbname rt.calls = true) :
    connection.ctor rt dbname =
      (.ok { data := { con := PQsetNoticeProcessor (rt.session dbname rt.calls), ok := true } },
       { rt with calls := rt.calls + 1 }) := by
  simp only [PQ.attempt_ok, PQ.session, decide_eq_true_eq] at h
  simp [connection.ctor, PQconnectdb, PQ.session, h]

theorem connection.ctor_fail (rt : PQ) (dbname : String)
    (h : rt.attempt_ok dbname rt.calls = false) :
    connection.ctor rt dbname =
      (.error { what := strf_connect (c_str dbname) (PQstatus (rt.session dbname rt.calls)) },
       { rt with calls := rt.calls + 1 }) := by
  simp only [PQ.attempt_ok, PQ.session, decide_eq_false_iff_not] at h
  simp [connection.ctor, PQconnectdb, PQ.session, h]

theorem c_str_of_no_nul (s : String) (h : Char.ofNat 0 ∉ s.data) : c_str s = s := by
  have key : ∀ l : List Char, Char.ofNat 0 ∉ l →
      l.takeWhile (fun ch => decide (ch ≠ Char.ofNat 0)) = l := by
    intro l hl
    induction l with
    | nil => rfl
    | cons a l ih =>
      have ha : a ≠ Char.ofNat 0 := fun e => hl (by simp [e])
      have hl1 : Char.ofNat 0 ∉ l := fun e => hl (by simp [e])
      rw [List.takeWhile_cons_of_pos (by simpa using ha), ih hl1]
  cases s with
  | mk data =>
    simp only [c_str]
    congr 1
    exact key data h

/-- C6 as stated fails: for a target name with a NUL character inside, the
refused connection raises an error whose message holds only the part of the
name before the NUL, and so does not contain the name. -/
theorem connection.ctor_nul_name :
    ∃ e, (connection.ctor { sample_runtime with calls := 1 } sample_nul_name).1 = .error e ∧
      e.what = "failed to connect to database \"db\" (status 1)" ∧
      ¬ ∃ pre post, e.what.data = pre ++ sample_nul_name.data ++ post := by
  refine ⟨{ what := "failed to connect to database \"db\" (status 1)" }, rfl, rfl, ?_⟩
  rintro ⟨pre, post, h⟩
  have hmem : Char.ofNat 0 ∈ pre ++ sample_nul_name.data ++ post := by
    simp [sample_nul_name]
  rw [← h] at hmem
  revert hmem
  decide

/-- C6, amended: construction raises exactly when the runtime's status for the
new session is not `CONNECTION_OK`; the message of the raised error contains
the target name up to its first NUL character (the whole name when it has
none) and the status code in decimal; and a connection that construction
returns has `ok()` true, on a session whose status is `CONNECTION_OK`. -/
theorem connection.connect_spec (rt : PQ) (dbname : String) :
    ((∃ e, (connection.ctor rt dbname).1 = .error e) ↔
      PQstatus (rt.session dbname rt.calls)
        ≠ CONNECTION_OK) ∧
    (∀ e, (connection.ctor rt dbname).1 = .error e →
      e.what = "failed to connect to database \"" ++ c_str dbname ++ "\" (status " ++
        toString (PQstatus (rt.session dbname rt.calls))
        ++ ")" ∧
      (∃ pre post, e.what.data = pre ++ (c_str dbname).data ++ post) ∧
      (∃ pre post, e.what.data = pre ++
        (toString (PQstatus
          (rt.session dbname rt.calls))).data ++ post)) ∧
    (Char.ofNat 0 ∉ dbname.data → c_str dbname = dbname) ∧
    (∀ c, (connection.ctor rt dbname).1 = .ok c →
      c.ok = true ∧ PQstatus c.data.con = CONNECTION_OK) := by
  cases hok : rt.attempt_ok dbname rt.calls with
  | true =>
    have hst : PQstatus (rt.session dbname rt.calls)
        = CONNECTION_OK := by
      simpa [PQ.attempt_ok] using hok
    rw [connection.ctor_ok rt dbname hok]
    refine ⟨?_, ?_, c_str_of_no_nul dbname, ?_⟩
    · simp [hst]
    · intro e he
      cases he
    · intro c hc
      simp only [Except.ok.injEq] at hc
      subst hc
      refine ⟨rfl, ?_⟩
      cases hcon : rt.session dbname rt.calls with
      | none => rw [hcon] at hst; cases hst
      | some s =>
        rw [hcon] at hst
        simpa [PQsetNoticeProcessor, PQstatus] using hst
  | false =>
    have hst : PQstatus (rt.session dbname rt.calls)
        ≠ CONNECTION_OK := by
      simpa [PQ.attempt_ok] using hok
    rw [connection.ctor_fail rt dbname hok]
    refine ⟨?_, ?_, c_str_of_no_nul dbname, ?_⟩
    · simp [hst]
    · intro e he
      simp only [Except.error.injEq] at he
      subst he
      refine ⟨rfl, ?_, ?_⟩
      · exact ⟨"failed to connect to database \"".data,
          ("\" (status " ++ toString (PQstatus (rt.session dbname rt.calls)) ++ ")").data,
          by simp [strf_connect, List.append_assoc]⟩
      · exact ⟨("failed to connect to database \"" ++ c_str dbname ++ "\" (status ").data,
          ")".data, by simp [strf_connect, List.append_assoc]⟩
    · intro c hc
      cases hc

theorem connection.connect_spec_witness :
    (∃ e, (connection.ctor { sample_runtime with calls := 1 } "db").1 = .error e ∧
      e.what = "failed to connect to database \"" ++ c_str "db" ++ "\" (status " ++
        toString (PQstatus (sample_runtime.session "db" 1))
        ++ ")") ∧
    (Char.ofNat 0 ∉ "db".data ∧ c_str "db" = "db") ∧
    (∃ c, (connection.ctor sample_runtime "db").1 = .ok c ∧ c.ok = true ∧
      PQstatus c.data.con = CONNECTION_OK) := by
  have he : (connection.ctor { sample_runtime with calls := 1 } "db").1 =
      .error { what := "failed to connect to database \"db\" (status 1)" } := rfl
  have hc : (connection.ctor sample_runtime "db").1 = .ok sample_connection := rfl
  have hn : Char.ofNat 0 ∉ "db".data := by decide
  exact ⟨⟨_, he, ((connection.connect_spec { sample_runtime with calls := 1 } "db").2.1 _ he).1⟩,
    ⟨hn, (connection.connect_spec sample_runtime "db").2.2.1 hn⟩,
    ⟨_, hc, (connection.connect_spec sample_runtime "db").2.2.2 _ hc⟩⟩

end postgres

/-! ## Theorems: pool construction -/

namespace postgres

theorem pool.ctor_loop_fail (dbname : String) (n : Nat) (cons : List pool_con) (rt : PQ)
    (k : Nat) (hk : k < n)
    (hup : ∀ j, j < k → rt.attempt_ok dbname (rt.calls + j) = true)
    (hdown : rt.attempt_ok dbname (rt.calls + k) = false) :
    pool.ctor_loop dbname n cons rt =
      (.error { what := strf_connect (c_str dbname) (PQstatus (rt.session dbname (rt.calls + k))) },
       { rt with calls := rt.calls + k + 1 }) := by
  induction n generalizing cons rt k with
  | zero => omega
  | succ n ih =>
    cases k with
    | zero =>
      simp only [Nat.add_zero] at hdown
      simp [pool.ctor_loop, pool_con.ctor, connection.ctor_fail rt dbname hdown]
    | succ k =>
      have h0 : rt.attempt_ok dbname rt.calls = true := by simpa using hup 0 (by omega)
      have hrec := fun cs => ih cs { rt with calls := rt.calls + 1 } k (by omega)
        (fun j hj => by
          have := hup (j + 1) (by omega)
          simpa [PQ.attempt_ok, PQ.session, Nat.add_assoc, Nat.add_comm 1 j] using this)
        (by simpa [PQ.attempt_ok, PQ.session, Nat.add_assoc, Nat.add_comm 1 k] using hdown)
      simp only [pool.ctor_loop, pool_con.ctor, connection.ctor_ok rt dbname h0, connection.ok,
        Bool.not_true, Bool.false_eq_true, if_false]
      rw [hrec]
      simp [PQ.session, Nat.add_assoc, Nat.add_comm 1 k]

theorem pool.ctor_loop_ok (dbname : String) (n : Nat) (cons : List pool_con) (rt rt1 : PQ)
    (p : pool) (h : pool.ctor_loop dbname n cons rt = (.ok p, rt1)) :
    p.ok_ = true ∧ rt1.calls = rt.calls + n ∧
    (∀ j, j < n → rt.attempt_ok dbname (rt.calls + j) = true) ∧
    ∃ cs, p.cons = cons ++ cs ∧ cs.length = n ∧
      ∀ c ∈ cs, c.in_use = false ∧ c.con.ok = true := by
  induction n generalizing cons rt with
  | zero =>
    simp only [pool.ctor_loop, Prod.mk.injEq, Except.ok.injEq] at h
    obtain ⟨hp, hrt⟩ := h
    subst hp hrt
    exact ⟨rfl, rfl, fun j hj => by omega, [], by simp, rfl, by simp⟩
  | succ n ih =>
    cases h0 : rt.attempt_ok dbname rt.calls with
    | false =>
      simp [pool.ctor_loop, pool_con.ctor, connection.ctor_fail rt dbname h0] at h
    | true =>
      simp only [pool.ctor_loop, pool_con.ctor, connection.ctor_ok rt dbname h0, connection.ok,
        Bool.not_true, Bool.false_eq_true, if_false] at h
      obtain ⟨hok, hcalls, hall, cs, hcs, hlen, hfree⟩ := ih _ _ h
      refine ⟨hok, by simpa [Nat.add_assoc, Nat.add_comm 1 n] using hcalls, ?_, ?_⟩
      · intro j hj
        cases j with
        | zero => simpa using h0
        | succ j =>
          have := hall j (by omega)
          simpa [PQ.attempt_ok, PQ.session, Nat.add_assoc, Nat.add_comm 1 j] using this
      · refine ⟨_ :: cs, by simpa using hcs, by simp [hlen], ?_⟩
        intro c hc
        rcases List.mem_cons.mp hc with rfl | hc
        · exact ⟨rfl, rfl⟩
        · exact hfree c hc

theorem pool.ctor_loop_total (dbname : String) (n : Nat) (cons : List pool_con) (rt : PQ)
    (hall : ∀ j, j < n → rt.attempt_ok dbname (rt.calls + j) = true) :
    ∃ p rt1, pool.ctor_loop dbname n cons rt = (.ok p, rt1) := by
  induction n generalizing cons rt with
  | zero => exact ⟨_, _, rfl⟩
  | succ n ih =>
    have h0 : rt.attempt_ok dbname rt.calls = true := by simpa using hall 0 (by omega)
    simp only [pool.ctor_loop, pool_con.ctor, connection.ctor_ok rt dbname h0, connection.ok,
      Bool.not_true, Bool.false_eq_true, if_false]
    apply ih
    intro j hj
    have := hall (j + 1) (by omega)
    simpa [PQ.attempt_ok, PQ.session, Nat.add_assoc, Nat.add_comm 1 j] using this

/-- C5 as stated fails: on a thread-safe runtime whose second connection
attempt is refused, constructing a pool of two raises the connection's error;
no pool object results, none with `is_ok()` false in particular. -/
theorem pool.ctor_raises :
    sample_runtime.threadsafe = true ∧
    (pool.ctor sample_runtime "db" 2).1 =
      .error { what := "failed to connect to database \"db\" (status 1)" } ∧
    ¬ ∃ p, (pool.ctor sample_runtime "db" 2).1 = .ok p ∧ p.is_ok = false := by
  have h : (pool.ctor sample_runtime "db" 2).1 =
      .error { what := "failed to connect to database \"db\" (status 1)" } := rfl
  refine ⟨rfl, h, ?_⟩
  rintro ⟨p, hp, _⟩
  rw [h] at hp
  cases hp

/-- C5, amended: on a thread-safe runtime, when attempt `k + 1` of the `count`
is the first whose session is not up, pool construction stops there, after
`k + 1` connection attempts, by raising that connection's error; whenever
construction yields a pool, all `count` sessions came up, the pool is the fresh
pool over its `count` connections, all healthy and all free, and `is_ok()` is
true; and when all `count` sessions come up, construction yields a pool. -/
theorem pool.construct_spec (rt : PQ) (dbname : String) (num_cons : Nat)
    (hts : rt.threadsafe = true) :
    (∀ k, k < num_cons →
      (∀ j, j < k → rt.attempt_ok dbname (rt.calls + j) = true) →
      rt.attempt_ok dbname (rt.calls + k) = false →
      pool.ctor rt dbname num_cons =
        (.error { what := strf_connect (c_str dbname)
                    (PQstatus (rt.session dbname (rt.calls + k))) },
         { rt with calls := rt.calls + k + 1 })) ∧
    (∀ p rt1, pool.ctor rt dbname num_cons = (.ok p, rt1) →
      p.is_ok = true ∧ p.cons.length = num_cons ∧
      (∀ c ∈ p.cons, c.in_use = false ∧ c.con.ok = true) ∧
      (∀ j, j < num_cons → rt.attempt_ok dbname (rt.calls + j) = true) ∧
      rt1.calls = rt.calls + num_cons ∧
      p = pool.fresh (p.cons.map pool_con.con)) ∧
    ((∀ j, j < num_cons → rt.attempt_ok dbname (rt.calls + j) = true) →
      ∃ p rt1, pool.ctor rt dbname num_cons = (.ok p, rt1)) := by
  have hc : pool.ctor rt dbname num_cons = pool.ctor_loop dbname num_cons [] rt := by
    simp [pool.ctor, hts]
  rw [hc]
  refine ⟨?_, ?_, ?_⟩
  · intro k hk hup hdown
    exact pool.ctor_loop_fail dbname num_cons [] rt k hk hup hdown
  · intro p rt1 h
    obtain ⟨hok, hcalls, hall, cs, hcs, hlen, hfree⟩ :=
      pool.ctor_loop_ok dbname num_cons [] rt rt1 p h
    simp only [List.nil_append] at hcs
    have hfree1 : ∀ c ∈ p.cons, c.in_use = false ∧ c.con.ok = true := by
      intro c hcmem
      rw [hcs] at hcmem
      exact hfree c hcmem
    refine ⟨hok, by rw [hcs, hlen], hfree1, hall, hcalls, ?_⟩
    have hmap : p.cons =
        (p.cons.map pool_con.con).map (fun c => ({ con := c, in_use := false } : pool_con)) := by
      rw [List.map_map]
      conv_lhs => rw [← List.map_id p.cons]
      apply List.map_congr_left
      intro c hcmem
      have hc := (hfree1 c hcmem).1
      cases c
      simp_all
    cases p with
    | mk cons ok_ =>
      simp only [pool.fresh, pool.mk.injEq]
      exact ⟨hmap, hok⟩
  · intro hall
    exact pool.ctor_loop_total dbname num_cons [] rt hall

theorem pool.construct_spec_witness :
    sample_runtime.threadsafe = true ∧
    (1 < 2 ∧ (∀ j, j < 1 → sample_runtime.attempt_ok "db" (sample_runtime.calls + j) = true) ∧
      sample_runtime.attempt_ok "db" (sample_runtime.calls + 1) = false ∧
      (pool.ctor sample_runtime "db" 2).1 =
        .error { what := strf_connect (c_str "db")
                   (PQstatus (sample_runtime.session "db" (sample_runtime.calls + 1))) }) ∧
    (∃ p rt1, pool.ctor sample_runtime "db" 1 = (.ok p, rt1) ∧ p.is_ok = true ∧
      p.cons.length = 1) := by
  have hup : ∀ j, j < 1 → sample_runtime.attempt_ok "db" (sample_runtime.calls + j) = true := by
    intro j hj
    have : j = 0 := by omega
    subst this
    rfl
  have hup1 : ∀ j, j < 1 → sample_runtime.attempt_ok "db" (sample_runtime.calls + j) = true := hup
  have hdown : sample_runtime.attempt_ok "db" (sample_runtime.calls + 1) = false := rfl
  have h1 := (pool.construct_spec sample_runtime "db" 2 rfl).1 1 (by decide) hup hdown
  obtain ⟨p, rt1, hp⟩ := (pool.construct_spec sample_runtime "db" 1 rfl).2.2 hup1
  have h2 := (pool.construct_spec sample_runtime "db" 1 rfl).2.1 p rt1 hp
  exact ⟨rfl, ⟨by decide, hup, hdown, by rw [h1]⟩, p, rt1, hp, h2.1, h2.2.1⟩

end postgres
